import Mathlib

/-! ArcCache: the adaptive replacement coordinator of CacheStrategy.

Shallow embedding of `src/ARCCache/ArcCache.h`.  The coordinator
(`ArcCache`, its constructor, `put`, both `get`s and `checkGhostCaches`) is
translated from the source.  The two partitions it owns, `ArcLruPart` and
`ArcLfuPart`, live in `ArcLruPart.h` and `ArcLfuPart.h`, which the source
tree does not contain; they are modelled from sections 3, 4.2, 4.4 and 4.5 of
the specification, and every such definition says so in its doc comment.

State is passed explicitly: an operation takes the object and returns the
new object next to its C++ result.  Reference parameters (`Value& value`,
`bool& shouldTransform`) are taken as arguments and returned.
-/

namespace CacheStrategy

/-! ## Ghost history (shared by both partitions) -/

/-- Modelled from the spec: insertion into a ghost history (both part headers
are absent).  Section 3: a ghost history is a "bounded set of evicted keys (no
values)"; section 4.5: on eviction "the key (not value) moves into this
partition's ghost history, evicting that history's own oldest member if full".
The list is kept newest first, so the oldest member is the last one; being a
set, a key is never recorded twice. -/
def ghostAdd {K : Type} [DecidableEq K] (ghost : List K) (ghostCapacity : Nat) (key : K) :
    List K :=
  let g := ghost.filter (fun k => decide (k ≠ key))
  key :: (if ghostCapacity ≤ g.length then g.dropLast else g)

/-! ## The recency partition -/

/-- Modelled from the spec: an entry of the recency partition (ArcLruPart.h is
absent).  Section 3: an entry is `(key, value)`; section 4.5: "the LRU part
additionally tracks, per key, how many times it has been accessed while
resident". -/
structure LruNode (K V : Type) where
  key : K
  value : V
  accessCount : Nat
deriving DecidableEq, Repr

/-- Modelled from the spec: the state of ArcLruPart (ArcLruPart.h is absent).
Section 4.5: "a bounded main structure (recency list for the LRU part) sized
to its own dynamically-adjusted capacity, plus a ghost history sized to mirror
that capacity"; section 3: the ghost capacity is "tracked independently from
the live partition capacity".  `mainCache` is the recency list, most recently
used first; `ghostCache` is the ghost history, newest first. -/
structure ArcLruPart (K V : Type) where
  capacity : Nat
  ghostCapacity : Nat
  transformThreshold : Nat
  mainCache : List (LruNode K V)
  ghostCache : List K
deriving DecidableEq, Repr

namespace ArcLruPart

variable {K V : Type} [DecidableEq K]

/-- Modelled from the spec: the object that the constructor
`ArcLruPart(capacity, transformThreshold)` called by the coordinator yields
when it succeeds (ArcLruPart.h is absent).  The partition is sized to the
capacity it is given, its ghost history mirrors that size, and both structures
start empty.  Whether the constructor succeeds is `construct`. -/
def new (capacity transformThreshold : Nat) : ArcLruPart K V :=
  { capacity := capacity
    ghostCapacity := capacity
    transformThreshold := transformThreshold
    mainCache := []
    ghostCache := [] }

/-- Modelled from the spec: `contain(key)` of ArcLruPart (absent header).
Section 4.1: "membership test", which for ARC "must NOT count as an access". -/
def contain (p : ArcLruPart K V) (key : K) : Bool :=
  p.mainCache.any (fun n => decide (n.key = key))

/-- Modelled from the spec: eviction of the least recently used entry of
ArcLruPart (absent header).  Section 4.2: "evicts the least-recently-used
end"; section 4.5: "On eviction from the live structure, the key (not value)
moves into this partition's ghost history". -/
def evictLeastRecent (p : ArcLruPart K V) : ArcLruPart K V :=
  match p.mainCache.getLast? with
  | none => p
  | some n =>
    { p with
      mainCache := p.mainCache.dropLast
      ghostCache := ghostAdd p.ghostCache p.ghostCapacity n.key }

/-- Modelled from the spec: `put(key, value)` of ArcLruPart (absent header).
Section 4.2: "put on existing key updates value and moves to MRU end; on new
key, inserts at MRU end and, if size exceeds capacity, evicts the
least-recently-used end".  A new entry has been accessed zero times (section 8
counts the first `get` after the `put` as access number one). -/
def put (p : ArcLruPart K V) (key : K) (value : V) : ArcLruPart K V :=
  match p.mainCache.find? (fun n => decide (n.key = key)) with
  | some n =>
    { p with
      mainCache :=
        { n with value := value } :: p.mainCache.filter (fun m => decide (m.key ≠ key)) }
  | none =>
    let p1 := { p with
      mainCache := { key := key, value := value, accessCount := 0 } :: p.mainCache }
    if p1.capacity < p1.mainCache.length then p1.evictLeastRecent else p1

/-- Modelled from the spec: `get(key, value, shouldTransform)` of ArcLruPart
(absent header).  Section 4.2: "get on hit moves the entry to the
most-recently-used end"; section 4.5: get "reports via an out-parameter
whether this count has crossed transformThreshold"; section 4.1: on a miss the
out value is left as it was.  The result is `(hit, value, shouldTransform,
part)`. -/
def get (p : ArcLruPart K V) (key : K) (value : V) (shouldTransform : Bool) :
    Bool × V × Bool × ArcLruPart K V :=
  match p.mainCache.find? (fun n => decide (n.key = key)) with
  | some n =>
    let n1 : LruNode K V := { n with accessCount := n.accessCount + 1 }
    (true, n1.value, decide (p.transformThreshold ≤ n1.accessCount),
      { p with mainCache := n1 :: p.mainCache.filter (fun m => decide (m.key ≠ key)) })
  | none => (false, value, shouldTransform, p)

/-- Modelled from the spec: `checkGhost(key)` of ArcLruPart (absent header).
Section 4.5: "true if key is present in this partition's ghost history; if so,
removes it (ghost hits are single-use signals)". -/
def checkGhost (p : ArcLruPart K V) (key : K) : Bool × ArcLruPart K V :=
  if key ∈ p.ghostCache then
    (true, { p with ghostCache := p.ghostCache.filter (fun k => decide (k ≠ key)) })
  else (false, p)

/-- Modelled from the spec: `increaseCapacity()` of ArcLruPart (absent
header).  Section 4.5: "adjust this partition's live capacity by +1".  The
upper bound "derived from the ARC cache's total budget" is not a check made
here: the coordinator only grants an increase after the other partition gave
one unit up, which bounds the capacity (see `Inv`). -/
def increaseCapacity (p : ArcLruPart K V) : ArcLruPart K V :=
  { p with capacity := p.capacity + 1 }

/-- Modelled from the spec: `decreaseCapacity()` of ArcLruPart (absent
header).  Section 4.5: adjusts the live capacity by -1 "subject to a lower
bound of 1" and "returns false (no-op) if already at the minimum".  The main
structure is "bounded" and "sized to its own dynamically-adjusted capacity"
(section 4.5) and section 3 keeps "list length ≤ capacity" invariant, so a full
partition gives up its least recently used entry (an eviction, hence recorded
in the ghost history) before its capacity shrinks. -/
def decreaseCapacity (p : ArcLruPart K V) : Bool × ArcLruPart K V :=
  if p.capacity ≤ 1 then (false, p)
  else
    let p1 := if p.capacity ≤ p.mainCache.length then p.evictLeastRecent else p
    (true, { p1 with capacity := p1.capacity - 1 })

end ArcLruPart

/-! ## The frequency partition -/

/-- Modelled from the spec: an entry of the frequency partition (ArcLfuPart.h
is absent).  Section 3: "a separate key→(value, count) map". -/
structure FreqNode (K V : Type) where
  key : K
  value : V
  freq : Nat
deriving DecidableEq, Repr

/-- Modelled from the spec: the state of ArcLfuPart (ArcLfuPart.h is absent).
Section 4.5: "a bounded main structure (... frequency table for the LFU part)
sized to its own dynamically-adjusted capacity, plus a ghost history".
`mainCache` lists the live entries in the order in which they arrived at their
current access count, oldest first, so that the bucket of one count is the
sublist of the entries with that count, in arrival order.  The part is built
from a capacity and a threshold only, so it has no aging ceiling. -/
structure ArcLfuPart (K V : Type) where
  capacity : Nat
  ghostCapacity : Nat
  transformThreshold : Nat
  mainCache : List (FreqNode K V)
  ghostCache : List K
deriving DecidableEq, Repr

namespace ArcLfuPart

variable {K V : Type} [DecidableEq K]

/-- Modelled from the spec: the constructor `ArcLfuPart(capacity,
transformThreshold)` called by the coordinator (ArcLfuPart.h is absent), as
the object it yields when it succeeds: sized to the capacity it is given, both
structures empty.  Whether the constructor succeeds is `construct`. -/
def new (capacity transformThreshold : Nat) : ArcLfuPart K V :=
  { capacity := capacity
    ghostCapacity := capacity
    transformThreshold := transformThreshold
    mainCache := []
    ghostCache := [] }

/-- Modelled from the spec: `contain(key)` of ArcLfuPart (absent header), the
membership test the coordinator uses; it is not an access. -/
def contain (p : ArcLfuPart K V) (key : K) : Bool :=
  p.mainCache.any (fun n => decide (n.key = key))

/-- Modelled from the spec: the eviction candidate of the frequency table
(absent header).  Section 3: the tie-break is "oldest-at-that-frequency
evicted first"; section 4.4: "the single oldest entry in the minimum-frequency
bucket". -/
def leastFrequent : List (FreqNode K V) → Option (FreqNode K V)
  | [] => none
  | n :: rest =>
    match leastFrequent rest with
    | none => some n
    | some m => if m.freq < n.freq then some m else some n

/-- Modelled from the spec: eviction from the frequency partition (absent
header); the evicted key moves into the ghost history (section 4.5). -/
def evictLeastFrequent (p : ArcLfuPart K V) : ArcLfuPart K V :=
  match leastFrequent p.mainCache with
  | none => p
  | some n =>
    { p with
      mainCache := p.mainCache.filter (fun m => decide (m.key ≠ n.key))
      ghostCache := ghostAdd p.ghostCache p.ghostCapacity n.key }

/-- Modelled from the spec: `put(key, value)` of ArcLfuPart (absent header).
Section 4.4: "if key exists, update value and treat as an access (count += 1,
move to new frequency bucket ...); if new and cache is full, evict the single
oldest entry in the minimum-frequency bucket, then insert the new key with
initial count = 1". -/
def put (p : ArcLfuPart K V) (key : K) (value : V) : ArcLfuPart K V :=
  match p.mainCache.find? (fun n => decide (n.key = key)) with
  | some n =>
    { p with
      mainCache := p.mainCache.filter (fun m => decide (m.key ≠ key)) ++
        [{ n with value := value, freq := n.freq + 1 }] }
  | none =>
    let p1 := if p.capacity ≤ p.mainCache.length then p.evictLeastFrequent else p
    { p1 with mainCache := p1.mainCache ++ [{ key := key, value := value, freq := 1 }] }

/-- Modelled from the spec: `get(key, value)` of ArcLfuPart (absent header).
Section 4.4: "on hit, same access bump as above; on miss, returns false";
section 4.1: on a miss the out value is left as it was.  The result is `(hit,
value, part)`. -/
def get (p : ArcLfuPart K V) (key : K) (value : V) : Bool × V × ArcLfuPart K V :=
  match p.mainCache.find? (fun n => decide (n.key = key)) with
  | some n =>
    (true, n.value,
      { p with
        mainCache := p.mainCache.filter (fun m => decide (m.key ≠ key)) ++
          [{ n with freq := n.freq + 1 }] })
  | none => (false, value, p)

/-- Modelled from the spec: `checkGhost(key)` of ArcLfuPart (absent header);
same contract as for the recency partition. -/
def checkGhost (p : ArcLfuPart K V) (key : K) : Bool × ArcLfuPart K V :=
  if key ∈ p.ghostCache then
    (true, { p with ghostCache := p.ghostCache.filter (fun k => decide (k ≠ key)) })
  else (false, p)

/-- Modelled from the spec: `increaseCapacity()` of ArcLfuPart (absent
header); see `ArcLruPart.increaseCapacity`. -/
def increaseCapacity (p : ArcLfuPart K V) : ArcLfuPart K V :=
  { p with capacity := p.capacity + 1 }

/-- Modelled from the spec: `decreaseCapacity()` of ArcLfuPart (absent
header); see `ArcLruPart.decreaseCapacity`.  A full partition evicts its
least frequently used entry before its capacity shrinks. -/
def decreaseCapacity (p : ArcLfuPart K V) : Bool × ArcLfuPart K V :=
  if p.capacity ≤ 1 then (false, p)
  else
    let p1 := if p.capacity ≤ p.mainCache.length then p.evictLeastFrequent else p
    (true, { p1 with capacity := p1.capacity - 1 })

end ArcLfuPart

/-! ## The coordinator (`src/ARCCache/ArcCache.h`) -/

/-- The data members of `ArcCache` (ArcCache.h, lines 78-82). -/
structure ArcCache (K V : Type) where
  capacity_ : Nat
  transformThreshold_ : Nat
  lruPart_ : ArcLruPart K V
  lfuPart_ : ArcLfuPart K V
deriving DecidableEq, Repr

namespace ArcCache

variable {K V : Type} [DecidableEq K]

/-- The constructor `ArcCache(capacity, transformThreshold)` (ArcCache.h, lines
12-18): a member initialiser list and an empty body.  Both partitions are
built from the whole `capacity`.  The C++ default arguments (capacity 10,
threshold 2) are left to the caller.  This is the object the initialiser list
builds once both partition constructors have returned; their possible failure
is in `construct`. -/
def new (capacity : Nat) (transformThreshold : Nat) : ArcCache K V :=
  { capacity_ := capacity
    transformThreshold_ := transformThreshold
    lruPart_ := ArcLruPart.new capacity transformThreshold
    lfuPart_ := ArcLfuPart.new capacity transformThreshold }

/-- The ghost-rebalance step `checkGhostCaches(key)` (ArcCache.h, lines
62-76).  Returns `inGhost` and the new state. -/
def checkGhostCaches (c : ArcCache K V) (key : K) : Bool × ArcCache K V :=
  let g1 := c.lruPart_.checkGhost key
  if g1.1 then
    let d := c.lfuPart_.decreaseCapacity
    if d.1 then
      (true, { c with lruPart_ := g1.2.increaseCapacity, lfuPart_ := d.2 })
    else
      (true, { c with lruPart_ := g1.2, lfuPart_ := d.2 })
  else
    let g2 := c.lfuPart_.checkGhost key
    if g2.1 then
      let d := g1.2.decreaseCapacity
      if d.1 then
        (true, { c with lruPart_ := d.2, lfuPart_ := g2.2.increaseCapacity })
      else
        (true, { c with lruPart_ := d.2, lfuPart_ := g2.2 })
    else
      (false, { c with lruPart_ := g1.2, lfuPart_ := g2.2 })

/-- The operation `put(key, value)` (ArcCache.h, lines 22-34). -/
def put (c : ArcCache K V) (key : K) (value : V) : ArcCache K V :=
  let c1 := (c.checkGhostCaches key).2
  let inLfu := c1.lfuPart_.contain key
  let c2 := { c1 with lruPart_ := c1.lruPart_.put key value }
  if inLfu then { c2 with lfuPart_ := c2.lfuPart_.put key value } else c2

/-- The operation `get(key, value)` (ArcCache.h, lines 36-53).  Takes the
current content of the reference parameter `value` and returns `(found,
value, cache)`. -/
def get (c : ArcCache K V) (key : K) (value : V) : Bool × V × ArcCache K V :=
  let c1 := (c.checkGhostCaches key).2
  let shouldTransform := false
  let r := c1.lruPart_.get key value shouldTransform
  if r.1 then
    if r.2.2.1 then
      (true, r.2.1, { c1 with lruPart_ := r.2.2.2, lfuPart_ := c1.lfuPart_.put key r.2.1 })
    else
      (true, r.2.1, { c1 with lruPart_ := r.2.2.2 })
  else
    let r2 := c1.lfuPart_.get key r.2.1
    (r2.1, r2.2.1, { c1 with lruPart_ := r.2.2.2, lfuPart_ := r2.2.2 })

/-- The convenience `get(key)` (ArcCache.h, lines 55-59): `Value value{}`,
the two-argument get, and the value is returned. -/
def getValue [Inhabited V] (c : ArcCache K V) (key : K) : V × ArcCache K V :=
  let r := c.get key default
  (r.2.1, r.2.2)

/-- A call a client can make on the cache. -/
inductive Op (K V : Type) where
  | put (key : K) (value : V)
  | get (key : K) (value : V)
deriving DecidableEq, Repr

/-- The cache after one client call. -/
def step (c : ArcCache K V) : Op K V → ArcCache K V
  | .put key value => c.put key value
  | .get key value => (c.get key value).2.2

/-- The cache after a sequence of client calls, first call first. -/
def run (c : ArcCache K V) (ops : List (Op K V)) : ArcCache K V :=
  ops.foldl step c

end ArcCache

end CacheStrategy


/-! ## Observations used to state the properties -/

namespace CacheStrategy

variable {K V : Type} [DecidableEq K]

/-- The value the recency partition holds for `key`, if the key is resident. -/
def ArcLruPart.lookup (p : ArcLruPart K V) (key : K) : Option V :=
  (p.mainCache.find? (fun n => decide (n.key = key))).map (fun n => n.value)

/-- The value the frequency partition holds for `key`, if the key is resident. -/
def ArcLfuPart.lookup (p : ArcLfuPart K V) (key : K) : Option V :=
  (p.mainCache.find? (fun n => decide (n.key = key))).map (fun n => n.value)

/-- The live `(key, value)` pairs of the recency partition. -/
def ArcLruPart.kvs (p : ArcLruPart K V) : List (K × V) :=
  p.mainCache.map (fun n => (n.key, n.value))

/-- The live `(key, value)` pairs of the frequency partition. -/
def ArcLfuPart.kvs (p : ArcLfuPart K V) : List (K × V) :=
  p.mainCache.map (fun n => (n.key, n.value))

/-- The most recently used entry of the recency partition is `(key, value)`. -/
def ArcLruPart.HeadIs (p : ArcLruPart K V) (key : K) (value : V) : Prop :=
  ∃ count rest, p.mainCache = { key := key, value := value, accessCount := count } :: rest

/-- The sizing invariant of a cache configured with total `capacity`: the two
partition capacities add up to twice the configured capacity, neither is below
one, and neither partition holds more live entries than its capacity. -/
def ArcCache.Inv (capacity : Nat) (c : ArcCache K V) : Prop :=
  c.lruPart_.capacity + c.lfuPart_.capacity = 2 * capacity ∧
  1 ≤ c.lruPart_.capacity ∧ 1 ≤ c.lfuPart_.capacity ∧
  c.lruPart_.mainCache.length ≤ c.lruPart_.capacity ∧
  c.lfuPart_.mainCache.length ≤ c.lfuPart_.capacity

/-- Copy consistency: a key that is live in both partitions has the same value
in both. -/
def ArcCache.Consistent (c : ArcCache K V) : Prop :=
  ∀ x ∈ c.lruPart_.kvs, ∀ y ∈ c.lfuPart_.kvs, x.1 = y.1 → x.2 = y.2

/-- The value a call writes for key `k`: `some value` for `put(k, value)`,
nothing for a put of another key or for a get. -/
def ArcCache.Op.putValue? (k : K) : ArcCache.Op K V → Option V
  | .put key value => if key = k then some value else none
  | .get _ _ => none

/-- The value of the most recent `put(k, ·)` in a sequence of calls (first call
first), if the sequence has one: the sequence is searched from its end. -/
def ArcCache.lastPut (ops : List (ArcCache.Op K V)) (k : K) : Option V :=
  ops.reverse.findSome? (ArcCache.Op.putValue? k)

/-- Freshness of a cache with respect to a record `m` of the last value put for
each key: every live entry, in either partition, holds the recorded value of
its key. -/
def ArcCache.Fresh (c : ArcCache K V) (m : K → Option V) : Prop :=
  (∀ x ∈ c.lruPart_.kvs, m x.1 = some x.2) ∧ (∀ y ∈ c.lfuPart_.kvs, m y.1 = some y.2)

/-! ## Facts about the recency partition -/

namespace ArcLruPart

theorem lru_contain_iff (p : ArcLruPart K V) (key : K) :
    p.contain key = true ↔ ∃ n ∈ p.mainCache, n.key = key := by
  simp [contain]

theorem lru_contain_eq_isSome (p : ArcLruPart K V) (key : K) :
    p.contain key = (p.lookup key).isSome := by
  rw [Bool.eq_iff_iff, lru_contain_iff]
  simp [lookup]

theorem lru_get_of_lookup_some (p : ArcLruPart K V) (key : K) (value v : V) (s : Bool)
    (h : p.lookup key = some v) :
    (p.get key value s).1 = true ∧ (p.get key value s).2.1 = v := by
  unfold lookup at h
  unfold get
  cases hf : p.mainCache.find? (fun n => decide (n.key = key)) with
  | none => simp [hf] at h
  | some n =>
    simp only [hf, Option.map_some', Option.some.injEq] at h
    simp [h]

theorem lru_get_of_lookup_none (p : ArcLruPart K V) (key : K) (value : V) (s : Bool)
    (h : p.lookup key = none) :
    p.get key value s = (false, value, s, p) := by
  unfold lookup at h
  unfold get
  cases hf : p.mainCache.find? (fun n => decide (n.key = key)) with
  | none => rfl
  | some n => simp [hf] at h

theorem lru_checkGhost_fst (p : ArcLruPart K V) (key : K) :
    (p.checkGhost key).1 = decide (key ∈ p.ghostCache) := by
  unfold checkGhost
  by_cases h : key ∈ p.ghostCache <;> simp [h]

theorem lru_checkGhost_of_not_mem (p : ArcLruPart K V) (key : K) (h : key ∉ p.ghostCache) :
    p.checkGhost key = (false, p) := by
  simp [checkGhost, h]

theorem lru_checkGhost_mainCache (p : ArcLruPart K V) (key : K) :
    (p.checkGhost key).2.mainCache = p.mainCache := by
  unfold checkGhost
  split <;> rfl

theorem lru_checkGhost_capacity (p : ArcLruPart K V) (key : K) :
    (p.checkGhost key).2.capacity = p.capacity := by
  unfold checkGhost
  split <;> rfl

theorem lru_decreaseCapacity_fst (p : ArcLruPart K V) :
    p.decreaseCapacity.1 = decide (1 < p.capacity) := by
  unfold decreaseCapacity
  by_cases h : p.capacity ≤ 1
  · simp [h]
  · simp [h]; omega

theorem lru_evictLeastRecent_capacity (p : ArcLruPart K V) :
    p.evictLeastRecent.capacity = p.capacity := by
  unfold evictLeastRecent
  split <;> rfl

theorem lru_evictLeastRecent_length (p : ArcLruPart K V) :
    p.evictLeastRecent.mainCache.length = p.mainCache.length - 1 := by
  unfold evictLeastRecent
  split
  · next h => simp [List.getLast?_eq_none_iff.mp h]
  · simp

theorem lru_decreaseCapacity_capacity (p : ArcLruPart K V) :
    p.decreaseCapacity.2.capacity =
      if p.decreaseCapacity.1 then p.capacity - 1 else p.capacity := by
  unfold decreaseCapacity
  by_cases h : p.capacity ≤ 1
  · simp [h]
  · simp only [h, if_false, if_true]
    split <;> simp [lru_evictLeastRecent_capacity]

theorem lru_decreaseCapacity_of_not (p : ArcLruPart K V) (h : p.decreaseCapacity.1 = false) :
    p.decreaseCapacity.2 = p := by
  unfold decreaseCapacity at h ⊢
  by_cases hc : p.capacity ≤ 1
  · simp [hc]
  · simp [hc] at h

theorem lru_decreaseCapacity_length (p : ArcLruPart K V)
    (h : p.mainCache.length ≤ p.capacity) :
    p.decreaseCapacity.2.mainCache.length ≤ p.decreaseCapacity.2.capacity := by
  unfold decreaseCapacity
  by_cases hc : p.capacity ≤ 1
  · simp [hc, h]
  · simp only [hc, if_false]
    by_cases hf : p.capacity ≤ p.mainCache.length
    · simp only [hf, if_true, lru_evictLeastRecent_capacity, lru_evictLeastRecent_length]
      omega
    · simp only [hf, if_false]
      omega

end ArcLruPart

/-! ## Facts about the frequency partition -/

namespace ArcLfuPart

theorem lfu_contain_iff (p : ArcLfuPart K V) (key : K) :
    p.contain key = true ↔ ∃ n ∈ p.mainCache, n.key = key := by
  simp [contain]

theorem lfu_contain_eq_isSome (p : ArcLfuPart K V) (key : K) :
    p.contain key = (p.lookup key).isSome := by
  rw [Bool.eq_iff_iff, lfu_contain_iff]
  simp [lookup]

theorem lfu_get_fst (p : ArcLfuPart K V) (key : K) (value : V) :
    (p.get key value).1 = p.contain key := by
  rw [lfu_contain_eq_isSome]
  unfold get lookup
  cases hf : p.mainCache.find? (fun n => decide (n.key = key)) <;> simp

theorem lfu_checkGhost_fst (p : ArcLfuPart K V) (key : K) :
    (p.checkGhost key).1 = decide (key ∈ p.ghostCache) := by
  unfold checkGhost
  by_cases h : key ∈ p.ghostCache <;> simp [h]

theorem lfu_checkGhost_of_not_mem (p : ArcLfuPart K V) (key : K) (h : key ∉ p.ghostCache) :
    p.checkGhost key = (false, p) := by
  simp [checkGhost, h]

theorem lfu_checkGhost_mainCache (p : ArcLfuPart K V) (key : K) :
    (p.checkGhost key).2.mainCache = p.mainCache := by
  unfold checkGhost
  split <;> rfl

theorem lfu_checkGhost_capacity (p : ArcLfuPart K V) (key : K) :
    (p.checkGhost key).2.capacity = p.capacity := by
  unfold checkGhost
  split <;> rfl

theorem lfu_decreaseCapacity_fst (p : ArcLfuPart K V) :
    p.decreaseCapacity.1 = decide (1 < p.capacity) := by
  unfold decreaseCapacity
  by_cases h : p.capacity ≤ 1
  · simp [h]
  · simp [h]; omega

omit [DecidableEq K] in
theorem lfu_leastFrequent_mem :
    ∀ (l : List (FreqNode K V)) (n : FreqNode K V), leastFrequent l = some n → n ∈ l
  | [], n, h => by simp [leastFrequent] at h
  | a :: rest, n, h => by
    unfold leastFrequent at h
    cases hr : leastFrequent rest with
    | none =>
      simp only [hr, Option.some.injEq] at h
      simp [h]
    | some m =>
      simp only [hr] at h
      by_cases hlt : m.freq < a.freq
      · simp only [hlt, if_true, Option.some.injEq] at h
        have := lfu_leastFrequent_mem rest m hr
        simp [← h, this]
      · simp only [hlt, if_false, Option.some.injEq] at h
        simp [h]

omit [DecidableEq K] in
theorem lfu_leastFrequent_eq_none (l : List (FreqNode K V)) (h : leastFrequent l = none) :
    l = [] := by
  cases l with
  | nil => rfl
  | cons a rest =>
    unfold leastFrequent at h
    cases hr : leastFrequent rest with
    | none => simp [hr] at h
    | some m =>
      simp only [hr] at h
      split at h <;> simp at h

theorem lfu_evictLeastFrequent_capacity (p : ArcLfuPart K V) :
    p.evictLeastFrequent.capacity = p.capacity := by
  unfold evictLeastFrequent
  split <;> rfl

theorem lfu_evictLeastFrequent_length (p : ArcLfuPart K V) :
    p.evictLeastFrequent.mainCache.length ≤ p.mainCache.length - 1 := by
  unfold evictLeastFrequent
  split
  · next h => simp [lfu_leastFrequent_eq_none _ h]
  · next n h =>
    have hm := lfu_leastFrequent_mem _ _ h
    have : (p.mainCache.filter (fun m => decide (m.key ≠ n.key))).length < p.mainCache.length :=
      List.length_filter_lt_length_iff_exists.mpr ⟨n, hm, by simp⟩
    simp only
    omega

theorem lfu_decreaseCapacity_capacity (p : ArcLfuPart K V) :
    p.decreaseCapacity.2.capacity =
      if p.decreaseCapacity.1 then p.capacity - 1 else p.capacity := by
  unfold decreaseCapacity
  by_cases h : p.capacity ≤ 1
  · simp [h]
  · simp only [h, if_false, if_true]
    split <;> simp [lfu_evictLeastFrequent_capacity]

theorem lfu_decreaseCapacity_of_not (p : ArcLfuPart K V) (h : p.decreaseCapacity.1 = false) :
    p.decreaseCapacity.2 = p := by
  unfold decreaseCapacity at h ⊢
  by_cases hc : p.capacity ≤ 1
  · simp [hc]
  · simp [hc] at h

theorem lfu_decreaseCapacity_length (p : ArcLfuPart K V)
    (h : p.mainCache.length ≤ p.capacity) :
    p.decreaseCapacity.2.mainCache.length ≤ p.decreaseCapacity.2.capacity := by
  unfold decreaseCapacity
  by_cases hc : p.capacity ≤ 1
  · simp [hc, h]
  · simp only [hc, if_false]
    by_cases hf : p.capacity ≤ p.mainCache.length
    · have := lfu_evictLeastFrequent_length p
      simp only [hf, if_true, lfu_evictLeastFrequent_capacity]
      omega
    · simp only [hf, if_false]
      omega

end ArcLfuPart

/-! ## The coordinator: get, put and the ghost-rebalance step -/

namespace ArcCache

theorem get_eq (c c1 : ArcCache K V) (key : K) (value : V)
    (h : (c.checkGhostCaches key).2 = c1) :
    c.get key value =
      (let r := c1.lruPart_.get key value false
       if r.1 then
         if r.2.2.1 then
           (true, r.2.1, { c1 with lruPart_ := r.2.2.2, lfuPart_ := c1.lfuPart_.put key r.2.1 })
         else (true, r.2.1, { c1 with lruPart_ := r.2.2.2 })
       else
         let r2 := c1.lfuPart_.get key r.2.1
         (r2.1, r2.2.1, { c1 with lruPart_ := r.2.2.2, lfuPart_ := r2.2.2 })) := by
  simp only [get, h]

theorem put_eq (c c1 : ArcCache K V) (key : K) (value : V)
    (h : (c.checkGhostCaches key).2 = c1) :
    c.put key value =
      (if c1.lfuPart_.contain key then
        { c1 with lruPart_ := c1.lruPart_.put key value, lfuPart_ := c1.lfuPart_.put key value }
      else { c1 with lruPart_ := c1.lruPart_.put key value }) := by
  simp only [put, h]

theorem get_of_lru_lookup (c : ArcCache K V) (key : K) (value v : V)
    (h : (c.checkGhostCaches key).2.lruPart_.lookup key = some v) :
    (c.get key value).1 = true ∧ (c.get key value).2.1 = v := by
  obtain ⟨h1, h2⟩ := ArcLruPart.lru_get_of_lookup_some _ key value v false h
  rw [get_eq c _ key value rfl]
  simp only [h1, h2, if_true]
  split <;> exact ⟨rfl, rfl⟩

theorem checkGhostCaches_lru_hit (c : ArcCache K V) (key : K)
    (h : key ∈ c.lruPart_.ghostCache) :
    c.checkGhostCaches key =
      (true, { c with
        lruPart_ :=
          if c.lfuPart_.decreaseCapacity.1 then (c.lruPart_.checkGhost key).2.increaseCapacity
          else (c.lruPart_.checkGhost key).2
        lfuPart_ := c.lfuPart_.decreaseCapacity.2 }) := by
  have hg : (c.lruPart_.checkGhost key).1 = true := by
    rw [ArcLruPart.lru_checkGhost_fst]
    simpa using h
  simp only [checkGhostCaches, hg, if_true]
  split <;> rfl

theorem checkGhostCaches_lfu_hit (c : ArcCache K V) (key : K)
    (h1 : key ∉ c.lruPart_.ghostCache) (h2 : key ∈ c.lfuPart_.ghostCache) :
    c.checkGhostCaches key =
      (true, { c with
        lruPart_ := c.lruPart_.decreaseCapacity.2
        lfuPart_ :=
          if c.lruPart_.decreaseCapacity.1 then (c.lfuPart_.checkGhost key).2.increaseCapacity
          else (c.lfuPart_.checkGhost key).2 }) := by
  have hg := ArcLruPart.lru_checkGhost_of_not_mem c.lruPart_ key h1
  have hg2 : (c.lfuPart_.checkGhost key).1 = true := by
    rw [ArcLfuPart.lfu_checkGhost_fst]
    simpa using h2
  simp only [checkGhostCaches, hg, hg2, if_true, Bool.false_eq_true, if_false]
  split <;> rfl

theorem checkGhostCaches_miss (c : ArcCache K V) (key : K)
    (h1 : key ∉ c.lruPart_.ghostCache) (h2 : key ∉ c.lfuPart_.ghostCache) :
    c.checkGhostCaches key = (false, c) := by
  have hg := ArcLruPart.lru_checkGhost_of_not_mem c.lruPart_ key h1
  have hg2 := ArcLfuPart.lfu_checkGhost_of_not_mem c.lfuPart_ key h2
  simp [checkGhostCaches, hg, hg2]

/-- C1: `get(key, out)` runs the ghost-rebalance step first.  If the key is
then resident in the LRU part with value `v`, get returns true with `out = v`,
and the LFU part is not read: it is left as it was, or receives
`put(key, v)` when the LRU part signals promotion.  If the key is not resident
in the LRU part, the returned boolean, the value written to `out` and the new
LFU part are those of the LFU part's get, and the LRU part is untouched.  So
get returns true iff, after the rebalance step, the key is resident in the LRU
part or in the LFU part. -/
theorem get_spec (c : ArcCache K V) (key : K) (value : V) :
    (match (c.checkGhostCaches key).2.lruPart_.lookup key with
      | some v =>
        (c.get key value).1 = true ∧ (c.get key value).2.1 = v ∧
        (c.get key value).2.2.lruPart_ =
          ((c.checkGhostCaches key).2.lruPart_.get key value false).2.2.2 ∧
        (c.get key value).2.2.lfuPart_ =
          (if ((c.checkGhostCaches key).2.lruPart_.get key value false).2.2.1 then
            (c.checkGhostCaches key).2.lfuPart_.put key v
          else (c.checkGhostCaches key).2.lfuPart_)
      | none =>
        (c.get key value).1 = ((c.checkGhostCaches key).2.lfuPart_.get key value).1 ∧
        (c.get key value).2.1 = ((c.checkGhostCaches key).2.lfuPart_.get key value).2.1 ∧
        (c.get key value).2.2.lfuPart_ =
          ((c.checkGhostCaches key).2.lfuPart_.get key value).2.2 ∧
        (c.get key value).2.2.lruPart_ = (c.checkGhostCaches key).2.lruPart_) ∧
    ((c.get key value).1 = true ↔
      ((c.checkGhostCaches key).2.lruPart_.contain key = true ∨
        (c.checkGhostCaches key).2.lfuPart_.contain key = true)) := by
  generalize hc1 : (c.checkGhostCaches key).2 = c1
  rw [get_eq c c1 key value hc1, ArcLruPart.lru_contain_eq_isSome]
  cases hl : c1.lruPart_.lookup key with
  | some v =>
    obtain ⟨h1, h2⟩ := ArcLruPart.lru_get_of_lookup_some c1.lruPart_ key value v false hl
    simp only [h1, h2, if_true]
    by_cases ht : (c1.lruPart_.get key value false).2.2.1 = true
    · simp [ht]
    · simp [ht]
  | none =>
    have h := ArcLruPart.lru_get_of_lookup_none c1.lruPart_ key value false hl
    simp [h, ArcLfuPart.lfu_get_fst]

/-- C2: `put(key, value)` runs the ghost-rebalance step, then writes the value
into the LRU part unconditionally, and writes it into the LFU part exactly
when the key was resident in the LFU part after the rebalance step; otherwise
the LFU part receives no put and stays as the rebalance step left it. -/
theorem put_spec (c : ArcCache K V) (key : K) (value : V) :
    (c.put key value).lruPart_ = (c.checkGhostCaches key).2.lruPart_.put key value ∧
    (c.put key value).lfuPart_ =
      (if ∃ n ∈ (c.checkGhostCaches key).2.lfuPart_.mainCache, n.key = key then
        (c.checkGhostCaches key).2.lfuPart_.put key value
      else (c.checkGhostCaches key).2.lfuPart_) ∧
    (c.put key value).capacity_ = c.capacity_ ∧
    (c.put key value).transformThreshold_ = c.transformThreshold_ := by
  generalize hc1 : (c.checkGhostCaches key).2 = c1
  have hcap : c1.capacity_ = c.capacity_ ∧ c1.transformThreshold_ = c.transformThreshold_ := by
    rw [← hc1]
    unfold checkGhostCaches
    simp only
    split <;> split <;> (try split) <;> exact ⟨rfl, rfl⟩
  rw [put_eq c c1 key value hc1]
  by_cases hin : c1.lfuPart_.contain key = true
  · have hex := (ArcLfuPart.lfu_contain_iff _ _).mp hin
    simp only [hin, if_true, hex, hcap, and_self]
  · have hex : ¬ ∃ n ∈ c1.lfuPart_.mainCache, n.key = key :=
      fun h => hin ((ArcLfuPart.lfu_contain_iff _ _).mpr h)
    simp only [hin, hex, if_false, hcap, and_self]
    simp

end ArcCache

/-! ## Sizes and capacities along a run -/

namespace ArcLruPart

theorem lru_filter_length_of_find (l : List (LruNode K V)) (key : K) (n : LruNode K V)
    (h : l.find? (fun n => decide (n.key = key)) = some n) :
    (l.filter (fun m => decide (m.key ≠ key))).length + 1 ≤ l.length := by
  have hm := List.mem_of_find?_eq_some h
  have hk : n.key = key := by simpa using List.find?_some h
  have : (l.filter (fun m => decide (m.key ≠ key))).length < l.length :=
    List.length_filter_lt_length_iff_exists.mpr ⟨n, hm, by simp [hk]⟩
  omega

theorem lru_put_capacity (p : ArcLruPart K V) (key : K) (value : V) :
    (p.put key value).capacity = p.capacity := by
  unfold put
  split
  · rfl
  · simp only
    split
    · exact lru_evictLeastRecent_capacity _
    · rfl

theorem lru_put_length (p : ArcLruPart K V) (key : K) (value : V)
    (h : p.mainCache.length ≤ p.capacity) :
    (p.put key value).mainCache.length ≤ p.capacity := by
  unfold put
  split
  · next n hf =>
    have := lru_filter_length_of_find _ _ _ hf
    simp only [List.length_cons]
    omega
  · simp only
    split
    · rw [lru_evictLeastRecent_length]
      simp only [List.length_cons]
      omega
    · next hlt => simpa using hlt

theorem lru_get_capacity (p : ArcLruPart K V) (key : K) (value : V) (s : Bool) :
    (p.get key value s).2.2.2.capacity = p.capacity := by
  unfold get
  split <;> rfl

theorem lru_get_length (p : ArcLruPart K V) (key : K) (value : V) (s : Bool) :
    (p.get key value s).2.2.2.mainCache.length ≤ p.mainCache.length := by
  unfold get
  split
  · next n hf =>
    have := lru_filter_length_of_find _ _ _ hf
    simp only [List.length_cons]
    omega
  · exact Nat.le_refl _

end ArcLruPart

namespace ArcLfuPart

theorem lfu_filter_length_of_find (l : List (FreqNode K V)) (key : K) (n : FreqNode K V)
    (h : l.find? (fun n => decide (n.key = key)) = some n) :
    (l.filter (fun m => decide (m.key ≠ key))).length + 1 ≤ l.length := by
  have hm := List.mem_of_find?_eq_some h
  have hk : n.key = key := by simpa using List.find?_some h
  have : (l.filter (fun m => decide (m.key ≠ key))).length < l.length :=
    List.length_filter_lt_length_iff_exists.mpr ⟨n, hm, by simp [hk]⟩
  omega

theorem lfu_put_capacity (p : ArcLfuPart K V) (key : K) (value : V) :
    (p.put key value).capacity = p.capacity := by
  unfold put
  split
  · rfl
  · simp only
    split
    · exact lfu_evictLeastFrequent_capacity _
    · rfl

theorem lfu_put_length (p : ArcLfuPart K V) (key : K) (value : V)
    (hc : 1 ≤ p.capacity) (h : p.mainCache.length ≤ p.capacity) :
    (p.put key value).mainCache.length ≤ p.capacity := by
  unfold put
  split
  · next n hf =>
    have := lfu_filter_length_of_find _ _ _ hf
    simp only [List.length_append, List.length_singleton]
    omega
  · simp only [List.length_append, List.length_singleton]
    split
    · have := lfu_evictLeastFrequent_length p
      omega
    · omega

theorem lfu_get_capacity (p : ArcLfuPart K V) (key : K) (value : V) :
    (p.get key value).2.2.capacity = p.capacity := by
  unfold get
  split <;> rfl

theorem lfu_get_length (p : ArcLfuPart K V) (key : K) (value : V) :
    (p.get key value).2.2.mainCache.length ≤ p.mainCache.length := by
  unfold get
  split
  · next n hf =>
    have := lfu_filter_length_of_find _ _ _ hf
    simp only [List.length_append, List.length_singleton]
    omega
  · exact Nat.le_refl _

end ArcLfuPart

namespace ArcCache

omit [DecidableEq K] in
theorem new_inv (capacity transformThreshold : Nat) (h : 0 < capacity) :
    Inv capacity (ArcCache.new capacity transformThreshold : ArcCache K V) := by
  simp only [Inv, ArcCache.new, ArcLruPart.new, ArcLfuPart.new, List.length_nil]
  omega

theorem checkGhostCaches_inv (n : Nat) (c : ArcCache K V) (key : K) (h : Inv n c) :
    Inv n (c.checkGhostCaches key).2 := by
  obtain ⟨hsum, hl, hf, hll, hfl⟩ := h
  by_cases h1 : key ∈ c.lruPart_.ghostCache
  · rw [checkGhostCaches_lru_hit c key h1]
    have hmain := ArcLruPart.lru_checkGhost_mainCache c.lruPart_ key
    have hgcap := ArcLruPart.lru_checkGhost_capacity c.lruPart_ key
    have hcap := ArcLfuPart.lfu_decreaseCapacity_capacity c.lfuPart_
    have hlen := ArcLfuPart.lfu_decreaseCapacity_length c.lfuPart_ hfl
    have hfst := ArcLfuPart.lfu_decreaseCapacity_fst c.lfuPart_
    by_cases hd : c.lfuPart_.decreaseCapacity.1 = true
    · have hlt : 1 < c.lfuPart_.capacity := by simpa [hfst] using hd
      simp only [hd, if_true] at hcap ⊢
      simp only [Inv, ArcLruPart.increaseCapacity, hmain, hgcap]
      exact ⟨by omega, by omega, by omega, by omega, hlen⟩
    · have hd2 : c.lfuPart_.decreaseCapacity.1 = false := by simpa using hd
      rw [ArcLfuPart.lfu_decreaseCapacity_of_not c.lfuPart_ hd2]
      simp only [hd2, Bool.false_eq_true, if_false, Inv, hmain, hgcap]
      exact ⟨hsum, hl, hf, hll, hfl⟩
  · by_cases h2 : key ∈ c.lfuPart_.ghostCache
    · rw [checkGhostCaches_lfu_hit c key h1 h2]
      have hmain := ArcLfuPart.lfu_checkGhost_mainCache c.lfuPart_ key
      have hgcap := ArcLfuPart.lfu_checkGhost_capacity c.lfuPart_ key
      have hcap := ArcLruPart.lru_decreaseCapacity_capacity c.lruPart_
      have hlen := ArcLruPart.lru_decreaseCapacity_length c.lruPart_ hll
      have hfst := ArcLruPart.lru_decreaseCapacity_fst c.lruPart_
      by_cases hd : c.lruPart_.decreaseCapacity.1 = true
      · have hlt : 1 < c.lruPart_.capacity := by simpa [hfst] using hd
        simp only [hd, if_true] at hcap ⊢
        simp only [Inv, ArcLfuPart.increaseCapacity, hmain, hgcap]
        exact ⟨by omega, by omega, by omega, hlen, by omega⟩
      · have hd2 : c.lruPart_.decreaseCapacity.1 = false := by simpa using hd
        rw [ArcLruPart.lru_decreaseCapacity_of_not c.lruPart_ hd2]
        simp only [hd2, Bool.false_eq_true, if_false, Inv, hmain, hgcap]
        exact ⟨hsum, hl, hf, hll, hfl⟩
    · rw [checkGhostCaches_miss c key h1 h2]
      exact ⟨hsum, hl, hf, hll, hfl⟩

theorem put_inv (n : Nat) (c : ArcCache K V) (key : K) (value : V) (h : Inv n c) :
    Inv n (c.put key value) := by
  obtain ⟨hsum, hl, hf, hll, hfl⟩ := checkGhostCaches_inv n c key h
  generalize hc1 : (c.checkGhostCaches key).2 = c1 at hsum hl hf hll hfl
  have h1 := ArcLruPart.lru_put_capacity c1.lruPart_ key value
  have h2 := ArcLruPart.lru_put_length c1.lruPart_ key value hll
  have h3 := ArcLfuPart.lfu_put_capacity c1.lfuPart_ key value
  have h4 := ArcLfuPart.lfu_put_length c1.lfuPart_ key value hf hfl
  rw [put_eq c c1 key value hc1]
  split
  · simp only [Inv, h1, h3]
    exact ⟨hsum, hl, hf, h2, h4⟩
  · simp only [Inv, h1]
    exact ⟨hsum, hl, hf, h2, hfl⟩

theorem get_inv (n : Nat) (c : ArcCache K V) (key : K) (value : V) (h : Inv n c) :
    Inv n (c.get key value).2.2 := by
  obtain ⟨hsum, hl, hf, hll, hfl⟩ := checkGhostCaches_inv n c key h
  generalize hc1 : (c.checkGhostCaches key).2 = c1 at hsum hl hf hll hfl
  have h1 := ArcLruPart.lru_get_capacity c1.lruPart_ key value false
  have h2 := ArcLruPart.lru_get_length c1.lruPart_ key value false
  rw [get_eq c c1 key value hc1]
  simp only
  split
  · split
    · have h3 := ArcLfuPart.lfu_put_capacity c1.lfuPart_ key (c1.lruPart_.get key value false).2.1
      have h4 := ArcLfuPart.lfu_put_length c1.lfuPart_ key (c1.lruPart_.get key value false).2.1 hf hfl
      simp only [Inv, h1, h3]
      exact ⟨hsum, hl, hf, by omega, h4⟩
    · simp only [Inv, h1]
      exact ⟨hsum, hl, hf, by omega, hfl⟩
  · have h3 := ArcLfuPart.lfu_get_capacity c1.lfuPart_ key (c1.lruPart_.get key value false).2.1
    have h4 := ArcLfuPart.lfu_get_length c1.lfuPart_ key (c1.lruPart_.get key value false).2.1
    simp only [Inv, h1, h3]
    exact ⟨hsum, hl, hf, by omega, by omega⟩

theorem step_inv (n : Nat) (c : ArcCache K V) (op : Op K V) (h : Inv n c) :
    Inv n (c.step op) := by
  cases op with
  | put key value => exact put_inv n c key value h
  | get key value => exact get_inv n c key value h

theorem run_inv (n : Nat) (ops : List (Op K V)) :
    ∀ (c : ArcCache K V), Inv n c → Inv n (c.run ops) := by
  induction ops with
  | nil => intro c h; exact h
  | cons op rest ih =>
    intro c h
    exact ih (c.step op) (step_inv n c op h)

end ArcCache

/-! ## The entry written last is the most recently used one -/

namespace ArcLruPart

theorem lru_put_headIs (p : ArcLruPart K V) (key : K) (value : V) (h : 1 ≤ p.capacity) :
    (p.put key value).HeadIs key value := by
  unfold put
  split
  · next n hf =>
    have hk : n.key = key := by simpa using List.find?_some hf
    exact ⟨n.accessCount, _, by rw [hk]⟩
  · simp only
    split
    · next hlt =>
      simp only [List.length_cons] at hlt
      have hne : p.mainCache ≠ [] := by
        intro h0
        rw [h0] at hlt
        simp at hlt
        omega
      unfold evictLeastRecent
      split
      · next hnone => simp at hnone
      · exact ⟨0, _, List.dropLast_cons_of_ne_nil hne⟩
    · exact ⟨0, _, rfl⟩

theorem lru_evictLeastRecent_headIs (p : ArcLruPart K V) (key : K) (value : V)
    (h : p.HeadIs key value) (hlen : 2 ≤ p.mainCache.length) :
    p.evictLeastRecent.HeadIs key value := by
  obtain ⟨cnt, rest, hm⟩ := h
  have hne : rest ≠ [] := by
    intro h0
    rw [hm, h0] at hlen
    simp at hlen
  unfold evictLeastRecent
  split
  · exact ⟨cnt, rest, hm⟩
  · exact ⟨cnt, rest.dropLast, by simp only [hm]; exact List.dropLast_cons_of_ne_nil hne⟩

theorem lru_decreaseCapacity_headIs (p : ArcLruPart K V) (key : K) (value : V)
    (h : p.HeadIs key value) : p.decreaseCapacity.2.HeadIs key value := by
  unfold decreaseCapacity
  by_cases hc : p.capacity ≤ 1
  · simpa [hc] using h
  · simp only [hc, if_false]
    by_cases hf : p.capacity ≤ p.mainCache.length
    · simp only [hf, if_true]
      exact lru_evictLeastRecent_headIs p key value h (by omega)
    · simp only [hf, if_false]
      exact h

theorem lru_checkGhost_headIs (p : ArcLruPart K V) (key k : K) (value : V)
    (h : p.HeadIs key value) : (p.checkGhost k).2.HeadIs key value := by
  unfold HeadIs
  rw [lru_checkGhost_mainCache]
  exact h

theorem lru_lookup_of_headIs (p : ArcLruPart K V) (key : K) (value : V)
    (h : p.HeadIs key value) : p.lookup key = some value := by
  obtain ⟨cnt, rest, hm⟩ := h
  simp [lookup, hm]

end ArcLruPart

namespace ArcCache

theorem checkGhostCaches_headIs (c : ArcCache K V) (key k : K) (value : V)
    (h : c.lruPart_.HeadIs key value) :
    (c.checkGhostCaches k).2.lruPart_.HeadIs key value := by
  have hg := ArcLruPart.lru_checkGhost_headIs c.lruPart_ key k value h
  unfold checkGhostCaches
  simp only
  split
  · split
    · exact hg
    · exact hg
  · split
    · have hd := ArcLruPart.lru_decreaseCapacity_headIs _ key value hg
      split
      · exact hd
      · exact hd
    · exact hg

/-- C4: round trip.  In every state reachable from a cache constructed with
capacity > 0, `put(k, v)` immediately followed by `get(k, out)` returns true
and sets `out = v`, and the convenience `get(k)` returns `v`. -/
theorem put_get_roundtrip [Inhabited V] (capacity transformThreshold : Nat)
    (ops : List (Op K V)) (k : K) (v out : V) (h : 0 < capacity) :
    ((((ArcCache.new capacity transformThreshold).run ops).put k v).get k out).1 = true ∧
    ((((ArcCache.new capacity transformThreshold).run ops).put k v).get k out).2.1 = v ∧
    ((((ArcCache.new capacity transformThreshold).run ops).put k v).getValue k).1 = v := by
  generalize hs : (ArcCache.new capacity transformThreshold : ArcCache K V).run ops = s
  have hinv : Inv capacity s := by
    rw [← hs]
    exact run_inv capacity ops _ (new_inv capacity transformThreshold h)
  have hcap := (checkGhostCaches_inv capacity s k hinv).2.1
  have hhead : (s.put k v).lruPart_.HeadIs k v := by
    have hput := ArcLruPart.lru_put_headIs (s.checkGhostCaches k).2.lruPart_ k v hcap
    rw [put_eq s _ k v rfl]
    split <;> exact hput
  have hlook := ArcLruPart.lru_lookup_of_headIs _ k v
    (checkGhostCaches_headIs (s.put k v) k k v hhead)
  have key : ∀ o : V, ((s.put k v).get k o).1 = true ∧ ((s.put k v).get k o).2.1 = v :=
    fun o => get_of_lru_lookup (s.put k v) k o v hlook
  exact ⟨(key out).1, (key out).2, (key default).2⟩

/-- C4 (witness): the round trip after the five calls of the specification's
scenario, for key 2 and value "x". -/
theorem put_get_roundtrip_witness :
    0 < 2 ∧
    ((((ArcCache.new 2 2 : ArcCache Nat String).run
        [.put 1 "a", .put 2 "b", .get 1 "", .get 1 "", .put 3 "c"]).put 2 "x").get 2 "").1
      = true ∧
    ((((ArcCache.new 2 2 : ArcCache Nat String).run
        [.put 1 "a", .put 2 "b", .get 1 "", .get 1 "", .put 3 "c"]).put 2 "x").get 2 "").2.1
      = "x" ∧
    ((((ArcCache.new 2 2 : ArcCache Nat String).run
        [.put 1 "a", .put 2 "b", .get 1 "", .get 1 "", .put 3 "c"]).put 2 "x").getValue 2).1
      = "x" :=
  ⟨by decide, put_get_roundtrip 2 2 _ 2 "x" "" (by decide)⟩

/-- C5 (counterexample): a cache constructed with total capacity 1 gives each
partition capacity 1, so the capacities add up to 2, which exceeds 1. -/
theorem capacity_sum_exceeds_total :
    ¬ ((ArcCache.new 1 2 : ArcCache Nat String).lruPart_.capacity +
        (ArcCache.new 1 2 : ArcCache Nat String).lfuPart_.capacity ≤ 1) := by
  decide

/-- C5 (as amended): for a cache constructed with total capacity c > 0, in the
fresh state and in every state reachable by put and get calls,
lruCapacity + lfuCapacity is exactly 2 * c (each partition is given the whole
of c, and the rebalance step moves one unit from one to the other), and
neither capacity is below 1. -/
theorem capacity_sum_eq (capacity transformThreshold : Nat) (ops : List (Op K V))
    (h : 0 < capacity) :
    ((ArcCache.new capacity transformThreshold : ArcCache K V).run ops).lruPart_.capacity +
      ((ArcCache.new capacity transformThreshold : ArcCache K V).run ops).lfuPart_.capacity
        = 2 * capacity ∧
    1 ≤ ((ArcCache.new capacity transformThreshold : ArcCache K V).run ops).lruPart_.capacity ∧
    1 ≤ ((ArcCache.new capacity transformThreshold : ArcCache K V).run ops).lfuPart_.capacity := by
  have hinv := run_inv capacity ops _ (new_inv (K := K) (V := V) capacity transformThreshold h)
  exact ⟨hinv.1, hinv.2.1, hinv.2.2.1⟩

/-- C5 (witness): the capacities after the scenario followed by `put(2, "x")`,
where a ghost hit has moved one unit: 3 + 1 = 2 * 2. -/
theorem capacity_sum_eq_witness :
    0 < 2 ∧
    (((ArcCache.new 2 2 : ArcCache Nat String).run
        [.put 1 "a", .put 2 "b", .get 1 "", .get 1 "", .put 3 "c", .put 2 "x"]).lruPart_.capacity +
      ((ArcCache.new 2 2 : ArcCache Nat String).run
        [.put 1 "a", .put 2 "b", .get 1 "", .get 1 "", .put 3 "c", .put 2 "x"]).lfuPart_.capacity
        = 2 * 2 ∧
    1 ≤ ((ArcCache.new 2 2 : ArcCache Nat String).run
        [.put 1 "a", .put 2 "b", .get 1 "", .get 1 "", .put 3 "c", .put 2 "x"]).lruPart_.capacity ∧
    1 ≤ ((ArcCache.new 2 2 : ArcCache Nat String).run
        [.put 1 "a", .put 2 "b", .get 1 "", .get 1 "", .put 3 "c", .put 2 "x"]).lfuPart_.capacity) :=
  ⟨by decide, capacity_sum_eq 2 2 _ (by decide)⟩

/-- C6 (counterexample): with capacity 1 and threshold 1, `put(1, "a")` then
`get(1)` leaves one live entry in each partition: two live entries in a cache
configured with total capacity 1. -/
theorem live_entries_exceed_total :
    ¬ (((ArcCache.new 1 1 : ArcCache Nat String).run
          [.put 1 "a", .get 1 ""]).lruPart_.mainCache.length +
        ((ArcCache.new 1 1 : ArcCache Nat String).run
          [.put 1 "a", .get 1 ""]).lfuPart_.mainCache.length ≤ 1) := by
  decide

/-- C6 (as amended): for a cache constructed with capacity c > 0 and every
sequence of put and get calls, the number of live entries in each partition
never exceeds that partition's current capacity, and the number of live
entries of the cache as a whole (LRU part plus LFU part) never exceeds
2 * c. -/
theorem live_entries_bound (capacity transformThreshold : Nat) (ops : List (Op K V))
    (h : 0 < capacity) :
    ((ArcCache.new capacity transformThreshold : ArcCache K V).run ops).lruPart_.mainCache.length
      ≤ ((ArcCache.new capacity transformThreshold : ArcCache K V).run ops).lruPart_.capacity ∧
    ((ArcCache.new capacity transformThreshold : ArcCache K V).run ops).lfuPart_.mainCache.length
      ≤ ((ArcCache.new capacity transformThreshold : ArcCache K V).run ops).lfuPart_.capacity ∧
    ((ArcCache.new capacity transformThreshold : ArcCache K V).run ops).lruPart_.mainCache.length +
      ((ArcCache.new capacity transformThreshold : ArcCache K V).run ops).lfuPart_.mainCache.length
        ≤ 2 * capacity := by
  have hinv := run_inv capacity ops _ (new_inv (K := K) (V := V) capacity transformThreshold h)
  obtain ⟨hsum, -, -, hl, hf⟩ := hinv
  exact ⟨hl, hf, by omega⟩

/-- C6 (witness): the bound on the state of the counterexample, where the cache
of capacity 1 holds 1 + 1 = 2 * 1 live entries. -/
theorem live_entries_bound_witness :
    0 < 1 ∧
    (((ArcCache.new 1 1 : ArcCache Nat String).run
        [.put 1 "a", .get 1 ""]).lruPart_.mainCache.length
      ≤ ((ArcCache.new 1 1 : ArcCache Nat String).run
        [.put 1 "a", .get 1 ""]).lruPart_.capacity ∧
    ((ArcCache.new 1 1 : ArcCache Nat String).run
        [.put 1 "a", .get 1 ""]).lfuPart_.mainCache.length
      ≤ ((ArcCache.new 1 1 : ArcCache Nat String).run
        [.put 1 "a", .get 1 ""]).lfuPart_.capacity ∧
    ((ArcCache.new 1 1 : ArcCache Nat String).run
        [.put 1 "a", .get 1 ""]).lruPart_.mainCache.length +
      ((ArcCache.new 1 1 : ArcCache Nat String).run
        [.put 1 "a", .get 1 ""]).lfuPart_.mainCache.length ≤ 2 * 1) :=
  ⟨by decide, live_entries_bound 1 1 _ (by decide)⟩

end ArcCache

/-! ## Live pairs of the partitions under each operation -/

namespace ArcLruPart

omit [DecidableEq K] in
theorem lru_mem_kvs (p : ArcLruPart K V) (x : K × V) :
    x ∈ p.kvs ↔ ∃ n ∈ p.mainCache, n.key = x.1 ∧ n.value = x.2 := by
  unfold kvs
  rw [List.mem_map]
  constructor
  · rintro ⟨n, hn, rfl⟩
    exact ⟨n, hn, rfl, rfl⟩
  · rintro ⟨n, hn, h1, h2⟩
    exact ⟨n, hn, by rw [h1, h2]⟩

theorem lru_evictLeastRecent_kvs (p : ArcLruPart K V) (x : K × V)
    (h : x ∈ p.evictLeastRecent.kvs) : x ∈ p.kvs := by
  rw [lru_mem_kvs] at h ⊢
  obtain ⟨n, hn, hk⟩ := h
  refine ⟨n, ?_, hk⟩
  unfold evictLeastRecent at hn
  split at hn
  · exact hn
  · exact List.dropLast_subset _ hn

theorem lru_decreaseCapacity_kvs (p : ArcLruPart K V) (x : K × V)
    (h : x ∈ p.decreaseCapacity.2.kvs) : x ∈ p.kvs := by
  unfold decreaseCapacity at h
  by_cases hc : p.capacity ≤ 1
  · simpa [hc] using h
  · simp only [hc, if_false] at h
    by_cases hf : p.capacity ≤ p.mainCache.length
    · simp only [hf, if_true] at h
      exact lru_evictLeastRecent_kvs p x h
    · simp only [hf, if_false] at h
      exact h

theorem lru_checkGhost_kvs (p : ArcLruPart K V) (key : K) :
    (p.checkGhost key).2.kvs = p.kvs := by
  unfold kvs
  rw [lru_checkGhost_mainCache]

theorem lru_key_ne_of_find_none (p : ArcLruPart K V) (key : K)
    (h : p.mainCache.find? (fun n => decide (n.key = key)) = none)
    (x : K × V) (hx : x ∈ p.kvs) : x.1 ≠ key := by
  rw [lru_mem_kvs] at hx
  obtain ⟨n, hn, hk, -⟩ := hx
  have := List.find?_eq_none.mp h n hn
  rw [← hk]
  simpa using this

theorem lru_mem_kvs_filter (l : List (LruNode K V)) (key : K) (x : K × V)
    (h : x ∈ (l.filter (fun m => decide (m.key ≠ key))).map (fun n => (n.key, n.value))) :
    x.1 ≠ key ∧ x ∈ l.map (fun n => (n.key, n.value)) := by
  rw [List.mem_map] at h
  obtain ⟨n, hn, rfl⟩ := h
  rw [List.mem_filter] at hn
  exact ⟨by simpa using hn.2, List.mem_map.mpr ⟨n, hn.1, rfl⟩⟩

theorem lru_put_kvs (p : ArcLruPart K V) (key : K) (value : V) (x : K × V)
    (h : x ∈ (p.put key value).kvs) : x = (key, value) ∨ (x.1 ≠ key ∧ x ∈ p.kvs) := by
  unfold put at h
  split at h
  · next n hf =>
    have hk : n.key = key := by simpa using List.find?_some hf
    simp only [kvs, List.map_cons, List.mem_cons] at h
    rcases h with h | h
    · exact Or.inl (by rw [h, hk])
    · exact Or.inr (lru_mem_kvs_filter _ _ _ h)
  · next hf =>
    simp only at h
    have hsub : x ∈ ({ p with mainCache :=
        { key := key, value := value, accessCount := 0 } :: p.mainCache } : ArcLruPart K V).kvs := by
      split at h
      · exact lru_evictLeastRecent_kvs _ x h
      · exact h
    simp only [kvs, List.map_cons, List.mem_cons] at hsub
    rcases hsub with h1 | h1
    · exact Or.inl h1
    · exact Or.inr ⟨lru_key_ne_of_find_none p key hf x h1, h1⟩

theorem lru_get_kvs (p : ArcLruPart K V) (key : K) (value : V) (s : Bool) (x : K × V)
    (h : x ∈ (p.get key value s).2.2.2.kvs) :
    ((p.get key value s).1 = true ∧ x = (key, (p.get key value s).2.1)) ∨
      (x.1 ≠ key ∧ x ∈ p.kvs) := by
  unfold get at h ⊢
  split at h
  · next n hf =>
    have hk : n.key = key := by simpa using List.find?_some hf
    simp only [kvs, List.map_cons, List.mem_cons] at h
    rcases h with h | h
    · exact Or.inl ⟨rfl, by rw [h, hk]⟩
    · exact Or.inr (lru_mem_kvs_filter _ _ _ h)
  · next hf =>
    exact Or.inr ⟨lru_key_ne_of_find_none p key hf x h, h⟩

theorem lru_get_contain (p : ArcLruPart K V) (key : K) (value : V) (s : Bool)
    (h : (p.get key value s).1 = true) : (p.get key value s).2.2.2.contain key = true := by
  unfold get at h ⊢
  split
  · next n hf =>
    have hk : n.key = key := by simpa using List.find?_some hf
    simp [contain, hk]
  · next hf => simp [hf] at h

end ArcLruPart

namespace ArcLfuPart

omit [DecidableEq K] in
theorem lfu_mem_kvs (p : ArcLfuPart K V) (x : K × V) :
    x ∈ p.kvs ↔ ∃ n ∈ p.mainCache, n.key = x.1 ∧ n.value = x.2 := by
  unfold kvs
  rw [List.mem_map]
  constructor
  · rintro ⟨n, hn, rfl⟩
    exact ⟨n, hn, rfl, rfl⟩
  · rintro ⟨n, hn, h1, h2⟩
    exact ⟨n, hn, by rw [h1, h2]⟩

theorem lfu_mem_kvs_filter (l : List (FreqNode K V)) (key : K) (x : K × V)
    (h : x ∈ (l.filter (fun m => decide (m.key ≠ key))).map (fun n => (n.key, n.value))) :
    x.1 ≠ key ∧ x ∈ l.map (fun n => (n.key, n.value)) := by
  rw [List.mem_map] at h
  obtain ⟨n, hn, rfl⟩ := h
  rw [List.mem_filter] at hn
  exact ⟨by simpa using hn.2, List.mem_map.mpr ⟨n, hn.1, rfl⟩⟩

theorem lfu_evictLeastFrequent_kvs (p : ArcLfuPart K V) (x : K × V)
    (h : x ∈ p.evictLeastFrequent.kvs) : x ∈ p.kvs := by
  unfold evictLeastFrequent at h
  split at h
  · exact h
  · exact (lfu_mem_kvs_filter _ _ _ h).2

theorem lfu_decreaseCapacity_kvs (p : ArcLfuPart K V) (x : K × V)
    (h : x ∈ p.decreaseCapacity.2.kvs) : x ∈ p.kvs := by
  unfold decreaseCapacity at h
  by_cases hc : p.capacity ≤ 1
  · simpa [hc] using h
  · simp only [hc, if_false] at h
    by_cases hf : p.capacity ≤ p.mainCache.length
    · simp only [hf, if_true] at h
      exact lfu_evictLeastFrequent_kvs p x h
    · simp only [hf, if_false] at h
      exact h

theorem lfu_checkGhost_kvs (p : ArcLfuPart K V) (key : K) :
    (p.checkGhost key).2.kvs = p.kvs := by
  unfold kvs
  rw [lfu_checkGhost_mainCache]

theorem lfu_key_ne_of_find_none (p : ArcLfuPart K V) (key : K)
    (h : p.mainCache.find? (fun n => decide (n.key = key)) = none)
    (x : K × V) (hx : x ∈ p.kvs) : x.1 ≠ key := by
  rw [lfu_mem_kvs] at hx
  obtain ⟨n, hn, hk, -⟩ := hx
  have := List.find?_eq_none.mp h n hn
  rw [← hk]
  simpa using this

theorem lfu_key_ne_of_not_contain (p : ArcLfuPart K V) (key : K) (h : ¬ p.contain key = true)
    (x : K × V) (hx : x ∈ p.kvs) : x.1 ≠ key := by
  rw [lfu_mem_kvs] at hx
  obtain ⟨n, hn, hk, -⟩ := hx
  intro heq
  exact h ((lfu_contain_iff p key).mpr ⟨n, hn, by rw [hk, heq]⟩)

theorem lfu_put_kvs (p : ArcLfuPart K V) (key : K) (value : V) (x : K × V)
    (h : x ∈ (p.put key value).kvs) : x = (key, value) ∨ (x.1 ≠ key ∧ x ∈ p.kvs) := by
  unfold put at h
  split at h
  · next n hf =>
    have hk : n.key = key := by simpa using List.find?_some hf
    simp only [kvs, List.map_append, List.map_cons, List.map_nil, List.mem_append,
      List.mem_singleton] at h
    rcases h with h | h
    · exact Or.inr (lfu_mem_kvs_filter _ _ _ h)
    · exact Or.inl (by rw [h, hk])
  · next hf =>
    simp only [kvs, List.map_append, List.map_cons, List.map_nil, List.mem_append,
      List.mem_singleton] at h
    rcases h with h | h
    · have hsub : x ∈ p.kvs := by
        split at h
        · exact lfu_evictLeastFrequent_kvs p x h
        · exact h
      exact Or.inr ⟨lfu_key_ne_of_find_none p key hf x hsub, hsub⟩
    · exact Or.inl h

theorem lfu_get_kvs (p : ArcLfuPart K V) (key : K) (value : V) (x : K × V)
    (h : x ∈ (p.get key value).2.2.kvs) : x ∈ p.kvs := by
  unfold get at h
  split at h
  · next n hf =>
    have hk : n.key = key := by simpa using List.find?_some hf
    have hm := List.mem_of_find?_eq_some hf
    simp only [kvs, List.map_append, List.map_cons, List.map_nil, List.mem_append,
      List.mem_singleton] at h
    rcases h with h | h
    · exact (lfu_mem_kvs_filter _ _ _ h).2
    · rw [h]
      exact List.mem_map.mpr ⟨n, hm, rfl⟩
  · exact h

theorem lfu_put_lookup (p : ArcLfuPart K V) (key : K) (value : V) :
    (p.put key value).lookup key = some value := by
  have hnone : ∀ l : List (FreqNode K V), (∀ m ∈ l, m.key ≠ key) →
      l.find? (fun n => decide (n.key = key)) = none := by
    intro l hl
    rw [List.find?_eq_none]
    intro m hm
    simpa using hl m hm
  unfold put lookup
  split
  · next n hf =>
    have hk : n.key = key := by simpa using List.find?_some hf
    have h0 := hnone (p.mainCache.filter (fun m => decide (m.key ≠ key)))
      (fun m hm => by simpa using (List.mem_filter.mp hm).2)
    simp only [List.find?_append, h0, Option.none_or, List.find?_cons, hk, decide_True,
      Option.map_some']
  · next hf =>
    have hall : ∀ m ∈ p.mainCache, m.key ≠ key := by
      intro m hm
      simpa using List.find?_eq_none.mp hf m hm
    have h0 : (if p.capacity ≤ p.mainCache.length then p.evictLeastFrequent else p).mainCache.find?
        (fun n => decide (n.key = key)) = none := by
      apply hnone
      intro m hm
      split at hm
      · unfold evictLeastFrequent at hm
        split at hm
        · exact hall m hm
        · exact hall m (List.mem_filter.mp hm).1
      · exact hall m hm
    simp only [List.find?_append, h0, Option.none_or, List.find?_cons, decide_True,
      Option.map_some']

end ArcLfuPart

/-! ## Construction, copies and promotion -/

namespace ArcLruPart

theorem lru_get_kvs_subset (p : ArcLruPart K V) (key : K) (value : V) (s : Bool) (x : K × V)
    (h : x ∈ (p.get key value s).2.2.2.kvs) : x ∈ p.kvs := by
  unfold get at h
  split at h
  · next n hf =>
    have hm := List.mem_of_find?_eq_some hf
    simp only [kvs, List.map_cons, List.mem_cons] at h
    rcases h with h | h
    · rw [h]
      exact List.mem_map.mpr ⟨n, hm, rfl⟩
    · exact (lru_mem_kvs_filter _ _ _ h).2
  · exact h

end ArcLruPart

namespace ArcCache

theorem checkGhostCaches_kvs (c : ArcCache K V) (key : K) :
    (∀ x ∈ (c.checkGhostCaches key).2.lruPart_.kvs, x ∈ c.lruPart_.kvs) ∧
    (∀ y ∈ (c.checkGhostCaches key).2.lfuPart_.kvs, y ∈ c.lfuPart_.kvs) := by
  have hl := ArcLruPart.lru_checkGhost_kvs c.lruPart_ key
  have hf := ArcLfuPart.lfu_checkGhost_kvs c.lfuPart_ key
  have hld : ∀ x ∈ (c.lruPart_.checkGhost key).2.decreaseCapacity.2.kvs, x ∈ c.lruPart_.kvs :=
    fun x hx => hl ▸ ArcLruPart.lru_decreaseCapacity_kvs _ x hx
  have hfd := ArcLfuPart.lfu_decreaseCapacity_kvs c.lfuPart_
  have hl2 : ∀ x ∈ (c.lruPart_.checkGhost key).2.kvs, x ∈ c.lruPart_.kvs :=
    fun x hx => hl ▸ hx
  have hf2 : ∀ x ∈ (c.lfuPart_.checkGhost key).2.kvs, x ∈ c.lfuPart_.kvs :=
    fun x hx => hf ▸ hx
  unfold checkGhostCaches
  simp only
  split
  · split
    · exact ⟨hl2, hfd⟩
    · exact ⟨hl2, hfd⟩
  · split
    · split
      · exact ⟨hld, hf2⟩
      · exact ⟨hld, hf2⟩
    · exact ⟨hl2, hf2⟩

theorem checkGhostCaches_consistent (c : ArcCache K V) (key : K) (h : c.Consistent) :
    (c.checkGhostCaches key).2.Consistent := by
  obtain ⟨hl, hf⟩ := checkGhostCaches_kvs c key
  intro x hx y hy hxy
  exact h x (hl x hx) y (hf y hy) hxy

theorem put_consistent (c : ArcCache K V) (key : K) (value : V) (h : c.Consistent) :
    (c.put key value).Consistent := by
  have h1 := checkGhostCaches_consistent c key h
  generalize hc1 : (c.checkGhostCaches key).2 = c1 at h1
  rw [put_eq c c1 key value hc1]
  intro x hx y hy hxy
  by_cases hin : c1.lfuPart_.contain key = true
  · simp only [hin, if_true] at hx hy
    rcases ArcLruPart.lru_put_kvs _ _ _ x hx with hx1 | ⟨hxk, hx1⟩
    · rcases ArcLfuPart.lfu_put_kvs _ _ _ y hy with hy1 | ⟨hyk, hy1⟩
      · rw [hx1, hy1]
      · exact absurd (by rw [← hxy, hx1]) hyk
    · rcases ArcLfuPart.lfu_put_kvs _ _ _ y hy with hy1 | ⟨hyk, hy1⟩
      · exact absurd (by rw [hxy, hy1]) hxk
      · exact h1 x hx1 y hy1 hxy
  · simp only [hin, if_false] at hx hy
    have hyk := ArcLfuPart.lfu_key_ne_of_not_contain _ key hin y hy
    rcases ArcLruPart.lru_put_kvs _ _ _ x hx with hx1 | ⟨hxk, hx1⟩
    · exact absurd (by rw [← hxy, hx1]) hyk
    · exact h1 x hx1 y hy hxy

theorem get_consistent (c : ArcCache K V) (key : K) (value : V) (h : c.Consistent) :
    (c.get key value).2.2.Consistent := by
  have h1 := checkGhostCaches_consistent c key h
  generalize hc1 : (c.checkGhostCaches key).2 = c1 at h1
  rw [get_eq c c1 key value hc1]
  have hlru := ArcLruPart.lru_get_kvs_subset c1.lruPart_ key value false
  intro x hx y hy hxy
  simp only at hx hy
  split at hx
  · split at hx
    · next hhit htr =>
      simp only [hhit, htr, if_true] at hy
      rcases ArcLruPart.lru_get_kvs _ _ _ _ x hx with ⟨-, hx1⟩ | ⟨hxk, hx1⟩
      · rcases ArcLfuPart.lfu_put_kvs _ _ _ y hy with hy1 | ⟨hyk, hy1⟩
        · rw [hx1, hy1]
        · exact absurd (by rw [← hxy, hx1]) hyk
      · rcases ArcLfuPart.lfu_put_kvs _ _ _ y hy with hy1 | ⟨hyk, hy1⟩
        · exact absurd (by rw [hxy, hy1]) hxk
        · exact h1 x hx1 y hy1 hxy
    · next hhit htr =>
      simp only [hhit, htr, if_true, if_false] at hy
      exact h1 x (hlru x hx) y hy hxy
  · next hhit =>
    simp only [hhit, if_false] at hy
    exact h1 x (hlru x hx) y (ArcLfuPart.lfu_get_kvs _ _ _ y hy) hxy

theorem step_consistent (c : ArcCache K V) (op : Op K V) (h : c.Consistent) :
    (c.step op).Consistent := by
  cases op with
  | put key value => exact put_consistent c key value h
  | get key value => exact get_consistent c key value h

theorem run_consistent (ops : List (Op K V)) :
    ∀ (c : ArcCache K V), c.Consistent → (c.run ops).Consistent := by
  induction ops with
  | nil => intro c h; exact h
  | cons op rest ih =>
    intro c h
    exact ih (c.step op) (step_consistent c op h)

omit [DecidableEq K] in
theorem new_consistent (capacity transformThreshold : Nat) :
    (ArcCache.new capacity transformThreshold : ArcCache K V).Consistent := by
  intro x hx
  simp [ArcCache.new, ArcLruPart.new, ArcLruPart.kvs] at hx

/-- C8: copy consistency.  In every state reachable from construction by put
and get calls, an entry of the LRU part and an entry of the LFU part that have
the same key have the same value. -/
theorem copy_consistency (capacity transformThreshold : Nat) (ops : List (Op K V))
    (n : LruNode K V) (m : FreqNode K V)
    (hn : n ∈ ((ArcCache.new capacity transformThreshold : ArcCache K V).run ops).lruPart_.mainCache)
    (hm : m ∈ ((ArcCache.new capacity transformThreshold : ArcCache K V).run ops).lfuPart_.mainCache)
    (hkey : n.key = m.key) : n.value = m.value := by
  have hc := run_consistent ops _ (new_consistent (K := K) (V := V) capacity transformThreshold)
  exact hc (n.key, n.value) (List.mem_map.mpr ⟨n, hn, rfl⟩) (m.key, m.value)
    (List.mem_map.mpr ⟨m, hm, rfl⟩) hkey

/-- C8 (witness): after key 1 was promoted and then overwritten with "z", both
partitions hold key 1 with value "z". -/
theorem copy_consistency_witness :
    (({ key := 1, value := "z", accessCount := 2 } : LruNode Nat String) ∈
      ((ArcCache.new 2 2 : ArcCache Nat String).run
        [.put 1 "a", .get 1 "", .get 1 "", .put 1 "z"]).lruPart_.mainCache) ∧
    (({ key := 1, value := "z", freq := 2 } : FreqNode Nat String) ∈
      ((ArcCache.new 2 2 : ArcCache Nat String).run
        [.put 1 "a", .get 1 "", .get 1 "", .put 1 "z"]).lfuPart_.mainCache) ∧
    ({ key := 1, value := "z", accessCount := 2 } : LruNode Nat String).value =
      ({ key := 1, value := "z", freq := 2 } : FreqNode Nat String).value :=
  ⟨by decide, by decide,
    copy_consistency 2 2 [.put 1 "a", .get 1 "", .get 1 "", .put 1 "z"]
      { key := 1, value := "z", accessCount := 2 } { key := 1, value := "z", freq := 2 }
      (by decide) (by decide) rfl⟩

/-- C9 (counterexample): with capacity 2 and threshold 1, after `put(1, "a")`
the call `get(1)` hits the LRU part with the promotion signal set, and
afterwards key 1 is resident in the LFU part and still resident in the LRU
part: a reachable state holds one key in both partitions. -/
theorem promotion_keeps_lru_copy :
    ((((ArcCache.new 2 1 : ArcCache Nat String).put 1 "a").checkGhostCaches 1).2.lruPart_.get
        1 "" false).1 = true ∧
    ((((ArcCache.new 2 1 : ArcCache Nat String).put 1 "a").checkGhostCaches 1).2.lruPart_.get
        1 "" false).2.2.1 = true ∧
    ((((ArcCache.new 2 1 : ArcCache Nat String).put 1 "a").get 1 "").2.2.lfuPart_.contain 1
      = true) ∧
    ¬ ((((ArcCache.new 2 1 : ArcCache Nat String).put 1 "a").get 1 "").2.2.lruPart_.contain 1
      = false) := by
  decide

/-- C9 (as amended): promotion copies.  After a get on a key that hits the LRU
part and whose access count has crossed transformThreshold, the entry is
resident in the LFU part, with the value the get returned, and it remains
resident in the LRU part. -/
theorem promotion_copies (c : ArcCache K V) (key : K) (value : V)
    (hhit : ((c.checkGhostCaches key).2.lruPart_.get key value false).1 = true)
    (hcross : ((c.checkGhostCaches key).2.lruPart_.get key value false).2.2.1 = true) :
    (c.get key value).1 = true ∧
    (c.get key value).2.2.lfuPart_.contain key = true ∧
    (c.get key value).2.2.lfuPart_.lookup key = some (c.get key value).2.1 ∧
    (c.get key value).2.2.lruPart_.contain key = true := by
  generalize hc1 : (c.checkGhostCaches key).2 = c1 at hhit hcross
  have hget : c.get key value =
      (true, (c1.lruPart_.get key value false).2.1,
        { c1 with lruPart_ := (c1.lruPart_.get key value false).2.2.2,
                  lfuPart_ := c1.lfuPart_.put key (c1.lruPart_.get key value false).2.1 }) := by
    simp only [get, hc1, hhit, hcross, if_true]
  rw [hget]
  have hl := ArcLfuPart.lfu_put_lookup c1.lfuPart_ key (c1.lruPart_.get key value false).2.1
  refine ⟨rfl, ?_, hl, ArcLruPart.lru_get_contain _ _ _ _ hhit⟩
  rw [ArcLfuPart.lfu_contain_eq_isSome]
  simp only [hl, Option.isSome_some]

/-- C9 (witness): the promotion of key 1 in the state of the counterexample. -/
theorem promotion_copies_witness :
    (((ArcCache.new 2 1 : ArcCache Nat String).put 1 "a").get 1 "").1 = true ∧
    (((ArcCache.new 2 1 : ArcCache Nat String).put 1 "a").get 1 "").2.2.lfuPart_.contain 1
      = true ∧
    (((ArcCache.new 2 1 : ArcCache Nat String).put 1 "a").get 1 "").2.2.lfuPart_.lookup 1
      = some (((ArcCache.new 2 1 : ArcCache Nat String).put 1 "a").get 1 "").2.1 ∧
    (((ArcCache.new 2 1 : ArcCache Nat String).put 1 "a").get 1 "").2.2.lruPart_.contain 1
      = true :=
  promotion_copies ((ArcCache.new 2 1 : ArcCache Nat String).put 1 "a") 1 "" (by decide)
    (by decide)

/-- C10: the concrete scenario.  On a cache built with capacity 2 and threshold
2, after `put(1,"a")`, `put(2,"b")`, `get(1)`, `get(1)`, `put(3,"c")`, key 2 is
not resident in the recency partition and is in its ghost history; the
rebalance step for key 2 reports a ghost hit, raises the recency partition's
capacity from 2 to 3 and lowers the frequency partition's from 2 to 1, and
these are the capacities after the following `put(2,"x")`. -/
theorem arc_scenario :
    ((((((ArcCache.new 2 2 : ArcCache Nat String).put 1 "a").put 2 "b").getValue 1).2.getValue
        1).2.put 3 "c").lruPart_.contain 2 = false ∧
    2 ∈ ((((((ArcCache.new 2 2 : ArcCache Nat String).put 1 "a").put 2 "b").getValue 1).2.getValue
        1).2.put 3 "c").lruPart_.ghostCache ∧
    (((((((ArcCache.new 2 2 : ArcCache Nat String).put 1 "a").put 2 "b").getValue 1).2.getValue
        1).2.put 3 "c").checkGhostCaches 2).1 = true ∧
    ((((((ArcCache.new 2 2 : ArcCache Nat String).put 1 "a").put 2 "b").getValue 1).2.getValue
        1).2.put 3 "c").lruPart_.capacity = 2 ∧
    ((((((ArcCache.new 2 2 : ArcCache Nat String).put 1 "a").put 2 "b").getValue 1).2.getValue
        1).2.put 3 "c").lfuPart_.capacity = 2 ∧
    (((((((ArcCache.new 2 2 : ArcCache Nat String).put 1 "a").put 2 "b").getValue 1).2.getValue
        1).2.put 3 "c").checkGhostCaches 2).2.lruPart_.capacity = 3 ∧
    (((((((ArcCache.new 2 2 : ArcCache Nat String).put 1 "a").put 2 "b").getValue 1).2.getValue
        1).2.put 3 "c").checkGhostCaches 2).2.lfuPart_.capacity = 1 ∧
    (((((((ArcCache.new 2 2 : ArcCache Nat String).put 1 "a").put 2 "b").getValue 1).2.getValue
        1).2.put 3 "c").put 2 "x").lruPart_.capacity = 3 ∧
    (((((((ArcCache.new 2 2 : ArcCache Nat String).put 1 "a").put 2 "b").getValue 1).2.getValue
        1).2.put 3 "c").put 2 "x").lfuPart_.capacity = 1 := by
  decide

end ArcCache

/-! ## The convenience get, capacity transfers and admission to the LFU part -/

namespace ArcLruPart

theorem lru_contain_iff_kvs (p : ArcLruPart K V) (key : K) :
    p.contain key = true ↔ ∃ x ∈ p.kvs, x.1 = key := by
  rw [lru_contain_iff]
  constructor
  · rintro ⟨n, hn, hk⟩
    exact ⟨(n.key, n.value), List.mem_map.mpr ⟨n, hn, rfl⟩, hk⟩
  · rintro ⟨x, hx, hk⟩
    obtain ⟨n, hn, h1, -⟩ := (lru_mem_kvs p x).mp hx
    exact ⟨n, hn, by rw [h1, hk]⟩

theorem lru_get_hit_mem (p : ArcLruPart K V) (key : K) (value : V) (s : Bool)
    (h : (p.get key value s).1 = true) : (key, (p.get key value s).2.1) ∈ p.kvs := by
  unfold get at h ⊢
  split
  · next n hf =>
    have hk : n.key = key := by simpa using List.find?_some hf
    have hm := List.mem_of_find?_eq_some hf
    exact List.mem_map.mpr ⟨n, hm, by rw [hk]⟩
  · next hf => simp [hf] at h

end ArcLruPart

namespace ArcLfuPart

theorem lfu_contain_iff_kvs (p : ArcLfuPart K V) (key : K) :
    p.contain key = true ↔ ∃ x ∈ p.kvs, x.1 = key := by
  rw [lfu_contain_iff]
  constructor
  · rintro ⟨n, hn, hk⟩
    exact ⟨(n.key, n.value), List.mem_map.mpr ⟨n, hn, rfl⟩, hk⟩
  · rintro ⟨x, hx, hk⟩
    obtain ⟨n, hn, h1, -⟩ := (lfu_mem_kvs p x).mp hx
    exact ⟨n, hn, by rw [h1, hk]⟩

theorem lfu_get_hit_mem (p : ArcLfuPart K V) (key : K) (value : V)
    (h : (p.get key value).1 = true) : (key, (p.get key value).2.1) ∈ p.kvs := by
  unfold get at h ⊢
  split
  · next n hf =>
    have hk : n.key = key := by simpa using List.find?_some hf
    have hm := List.mem_of_find?_eq_some hf
    exact List.mem_map.mpr ⟨n, hm, by rw [hk]⟩
  · next hf => simp [hf] at h

theorem lfu_get_of_not_contain (p : ArcLfuPart K V) (key : K) (value : V)
    (h : p.contain key = false) : p.get key value = (false, value, p) := by
  rw [lfu_contain_eq_isSome] at h
  unfold lookup at h
  unfold get
  cases hf : p.mainCache.find? (fun n => decide (n.key = key)) with
  | none => rfl
  | some n => simp [hf] at h

end ArcLfuPart

namespace ArcCache

theorem checkGhostCaches_contain (c : ArcCache K V) (key k : K) :
    ((c.checkGhostCaches key).2.lruPart_.contain k = true → c.lruPart_.contain k = true) ∧
    ((c.checkGhostCaches key).2.lfuPart_.contain k = true → c.lfuPart_.contain k = true) := by
  obtain ⟨hl, hf⟩ := checkGhostCaches_kvs c key
  constructor
  · intro h
    obtain ⟨x, hx, hk⟩ := (ArcLruPart.lru_contain_iff_kvs _ _).mp h
    exact (ArcLruPart.lru_contain_iff_kvs _ _).mpr ⟨x, hl x hx, hk⟩
  · intro h
    obtain ⟨x, hx, hk⟩ := (ArcLfuPart.lfu_contain_iff_kvs _ _).mp h
    exact (ArcLfuPart.lfu_contain_iff_kvs _ _).mpr ⟨x, hf x hx, hk⟩

theorem get_of_not_resident (c : ArcCache K V) (key : K) (value : V)
    (h1 : c.lruPart_.contain key = false) (h2 : c.lfuPart_.contain key = false) :
    (c.get key value).1 = false ∧ (c.get key value).2.1 = value := by
  obtain ⟨hl, hf⟩ := checkGhostCaches_contain c key key
  generalize hc1 : (c.checkGhostCaches key).2 = c1 at hl hf
  have hl1 : c1.lruPart_.lookup key = none := by
    have : ¬ c1.lruPart_.contain key = true := fun h => by simp [hl h] at h1
    rw [ArcLruPart.lru_contain_eq_isSome] at this
    simpa using this
  have hf1 : c1.lfuPart_.contain key = false := by
    have : ¬ c1.lfuPart_.contain key = true := fun h => by simp [hf h] at h2
    simpa using this
  rw [get_eq c c1 key value hc1, ArcLruPart.lru_get_of_lookup_none _ _ _ _ hl1]
  simp [ArcLfuPart.lfu_get_of_not_contain _ _ _ hf1]

/-- C11: the convenience `get(key)` returns exactly the value that
`get(key, out)` writes into an out parameter initialised to the default value,
and leaves the cache in the same state.  Moreover, unless the key is resident
in the LRU part or in the LFU part, the two-argument get returns false and
leaves `out` at its default, and `get(key)` returns the default value. -/
theorem getValue_spec [Inhabited V] (c : ArcCache K V) (key : K) :
    (c.getValue key).1 = (c.get key default).2.1 ∧
    (c.getValue key).2 = (c.get key default).2.2 ∧
    (c.lruPart_.contain key = true ∨ c.lfuPart_.contain key = true ∨
      ((c.get key default).1 = false ∧ (c.get key default).2.1 = default ∧
        (c.getValue key).1 = default)) := by
  refine ⟨rfl, rfl, ?_⟩
  by_cases h1 : c.lruPart_.contain key = true
  · exact Or.inl h1
  · by_cases h2 : c.lfuPart_.contain key = true
    · exact Or.inr (Or.inl h2)
    · have h := get_of_not_resident c key default (by simpa using h1) (by simpa using h2)
      exact Or.inr (Or.inr ⟨h.1, h.2, h.2⟩)

theorem checkGhostCaches_capacities (c : ArcCache K V) (key : K) :
    ((c.checkGhostCaches key).1 = false ∧
      (c.checkGhostCaches key).2.lruPart_.capacity = c.lruPart_.capacity ∧
      (c.checkGhostCaches key).2.lfuPart_.capacity = c.lfuPart_.capacity) ∨
    ((c.checkGhostCaches key).1 = true ∧
      ((c.checkGhostCaches key).2.lruPart_.capacity = c.lruPart_.capacity ∧
        (c.checkGhostCaches key).2.lfuPart_.capacity = c.lfuPart_.capacity ∨
       (c.checkGhostCaches key).2.lruPart_.capacity = c.lruPart_.capacity + 1 ∧
        (c.checkGhostCaches key).2.lfuPart_.capacity + 1 = c.lfuPart_.capacity ∨
       (c.checkGhostCaches key).2.lfuPart_.capacity = c.lfuPart_.capacity + 1 ∧
        (c.checkGhostCaches key).2.lruPart_.capacity + 1 = c.lruPart_.capacity)) := by
  by_cases h1 : key ∈ c.lruPart_.ghostCache
  · rw [checkGhostCaches_lru_hit c key h1]
    have hgcap := ArcLruPart.lru_checkGhost_capacity c.lruPart_ key
    have hcap := ArcLfuPart.lfu_decreaseCapacity_capacity c.lfuPart_
    have hfst := ArcLfuPart.lfu_decreaseCapacity_fst c.lfuPart_
    refine Or.inr ⟨rfl, ?_⟩
    by_cases hd : c.lfuPart_.decreaseCapacity.1 = true
    · have hlt : 1 < c.lfuPart_.capacity := by simpa [hfst] using hd
      simp only [hd, if_true] at hcap ⊢
      simp only [ArcLruPart.increaseCapacity, hgcap]
      exact Or.inr (Or.inl ⟨trivial, by omega⟩)
    · have hd2 : c.lfuPart_.decreaseCapacity.1 = false := by simpa using hd
      rw [ArcLfuPart.lfu_decreaseCapacity_of_not c.lfuPart_ hd2]
      simp only [hd2, Bool.false_eq_true, if_false, hgcap]
      exact Or.inl ⟨trivial, trivial⟩
  · by_cases h2 : key ∈ c.lfuPart_.ghostCache
    · rw [checkGhostCaches_lfu_hit c key h1 h2]
      have hgcap := ArcLfuPart.lfu_checkGhost_capacity c.lfuPart_ key
      have hcap := ArcLruPart.lru_decreaseCapacity_capacity c.lruPart_
      have hfst := ArcLruPart.lru_decreaseCapacity_fst c.lruPart_
      refine Or.inr ⟨rfl, ?_⟩
      by_cases hd : c.lruPart_.decreaseCapacity.1 = true
      · have hlt : 1 < c.lruPart_.capacity := by simpa [hfst] using hd
        simp only [hd, if_true] at hcap ⊢
        simp only [ArcLfuPart.increaseCapacity, hgcap]
        exact Or.inr (Or.inr ⟨trivial, by omega⟩)
      · have hd2 : c.lruPart_.decreaseCapacity.1 = false := by simpa using hd
        rw [ArcLruPart.lru_decreaseCapacity_of_not c.lruPart_ hd2]
        simp only [hd2, Bool.false_eq_true, if_false, hgcap]
        exact Or.inl ⟨trivial, trivial⟩
    · rw [checkGhostCaches_miss c key h1 h2]
      exact Or.inl ⟨rfl, rfl, rfl⟩

theorem put_capacities (c : ArcCache K V) (key : K) (value : V) :
    (c.put key value).lruPart_.capacity = (c.checkGhostCaches key).2.lruPart_.capacity ∧
    (c.put key value).lfuPart_.capacity = (c.checkGhostCaches key).2.lfuPart_.capacity := by
  rw [put_eq c _ key value rfl]
  split
  · exact ⟨ArcLruPart.lru_put_capacity _ _ _, ArcLfuPart.lfu_put_capacity _ _ _⟩
  · exact ⟨ArcLruPart.lru_put_capacity _ _ _, rfl⟩

theorem get_capacities (c : ArcCache K V) (key : K) (value : V) :
    (c.get key value).2.2.lruPart_.capacity = (c.checkGhostCaches key).2.lruPart_.capacity ∧
    (c.get key value).2.2.lfuPart_.capacity = (c.checkGhostCaches key).2.lfuPart_.capacity := by
  rw [get_eq c _ key value rfl]
  simp only
  split
  · split
    · exact ⟨ArcLruPart.lru_get_capacity _ _ _ _, ArcLfuPart.lfu_put_capacity _ _ _⟩
    · exact ⟨ArcLruPart.lru_get_capacity _ _ _ _, rfl⟩
  · exact ⟨ArcLruPart.lru_get_capacity _ _ _ _, ArcLfuPart.lfu_get_capacity _ _ _⟩

/-- C12 (counterexample): in the state of the specification's scenario, the
rebalance step for key 2 changes the capacity of both partitions: the LRU
part's goes from 2 to 3 and the LFU part's from 2 to 1. -/
theorem checkGhostCaches_changes_both :
    ((((ArcCache.new 2 2 : ArcCache Nat String).run
        [.put 1 "a", .put 2 "b", .get 1 "", .get 1 "", .put 3 "c"]).checkGhostCaches
          2).2.lruPart_.capacity ≠
      ((ArcCache.new 2 2 : ArcCache Nat String).run
        [.put 1 "a", .put 2 "b", .get 1 "", .get 1 "", .put 3 "c"]).lruPart_.capacity) ∧
    ((((ArcCache.new 2 2 : ArcCache Nat String).run
        [.put 1 "a", .put 2 "b", .get 1 "", .get 1 "", .put 3 "c"]).checkGhostCaches
          2).2.lfuPart_.capacity ≠
      ((ArcCache.new 2 2 : ArcCache Nat String).run
        [.put 1 "a", .put 2 "b", .get 1 "", .get 1 "", .put 3 "c"]).lfuPart_.capacity) := by
  decide

/-- C12 (as amended): a single call of `checkGhostCaches(key)` changes the
capacity of neither partition or of both: either both capacities are
unchanged, or the LRU part grows by one while the LFU part shrinks by one, or
the LFU part grows by one while the LRU part shrinks by one.  At most one
partition gains capacity per call. -/
theorem checkGhostCaches_capacity_change (c : ArcCache K V) (key : K) :
    ((c.checkGhostCaches key).2.lruPart_.capacity = c.lruPart_.capacity ∧
      (c.checkGhostCaches key).2.lfuPart_.capacity = c.lfuPart_.capacity) ∨
    ((c.checkGhostCaches key).2.lruPart_.capacity = c.lruPart_.capacity + 1 ∧
      (c.checkGhostCaches key).2.lfuPart_.capacity + 1 = c.lfuPart_.capacity) ∨
    ((c.checkGhostCaches key).2.lfuPart_.capacity = c.lfuPart_.capacity + 1 ∧
      (c.checkGhostCaches key).2.lruPart_.capacity + 1 = c.lruPart_.capacity) := by
  rcases checkGhostCaches_capacities c key with ⟨-, h⟩ | ⟨-, h⟩
  · exact Or.inl h
  · exact h

/-- C14: capacity conservation.  For every state and every put or get call,
lruCapacity + lfuCapacity after the call equals the sum before it.  The
capacities after the call are those the rebalance step leaves; when the step
reports a ghost hit it moves exactly one unit from one partition to the other
or moves nothing, and when it reports no ghost hit both capacities are
unchanged. -/
theorem capacity_conservation (c : ArcCache K V) (key : K) (value : V) :
    ((c.put key value).lruPart_.capacity + (c.put key value).lfuPart_.capacity =
      c.lruPart_.capacity + c.lfuPart_.capacity) ∧
    ((c.get key value).2.2.lruPart_.capacity + (c.get key value).2.2.lfuPart_.capacity =
      c.lruPart_.capacity + c.lfuPart_.capacity) ∧
    ((c.put key value).lruPart_.capacity = (c.checkGhostCaches key).2.lruPart_.capacity ∧
      (c.put key value).lfuPart_.capacity = (c.checkGhostCaches key).2.lfuPart_.capacity) ∧
    ((c.get key value).2.2.lruPart_.capacity = (c.checkGhostCaches key).2.lruPart_.capacity ∧
      (c.get key value).2.2.lfuPart_.capacity = (c.checkGhostCaches key).2.lfuPart_.capacity) ∧
    (if (c.checkGhostCaches key).1 then
      ((c.checkGhostCaches key).2.lruPart_.capacity = c.lruPart_.capacity ∧
        (c.checkGhostCaches key).2.lfuPart_.capacity = c.lfuPart_.capacity) ∨
      ((c.checkGhostCaches key).2.lruPart_.capacity = c.lruPart_.capacity + 1 ∧
        (c.checkGhostCaches key).2.lfuPart_.capacity + 1 = c.lfuPart_.capacity) ∨
      ((c.checkGhostCaches key).2.lfuPart_.capacity = c.lfuPart_.capacity + 1 ∧
        (c.checkGhostCaches key).2.lruPart_.capacity + 1 = c.lruPart_.capacity)
    else
      (c.checkGhostCaches key).2.lruPart_.capacity = c.lruPart_.capacity ∧
        (c.checkGhostCaches key).2.lfuPart_.capacity = c.lfuPart_.capacity) := by
  obtain ⟨hp1, hp2⟩ := put_capacities c key value
  obtain ⟨hg1, hg2⟩ := get_capacities c key value
  refine ⟨?_, ?_, ⟨hp1, hp2⟩, ⟨hg1, hg2⟩, ?_⟩
  · rw [hp1, hp2]
    rcases checkGhostCaches_capacities c key with ⟨-, h⟩ | ⟨-, h | h | h⟩ <;> omega
  · rw [hg1, hg2]
    rcases checkGhostCaches_capacities c key with ⟨-, h⟩ | ⟨-, h | h | h⟩ <;> omega
  · rcases checkGhostCaches_capacities c key with ⟨hr, h⟩ | ⟨hr, h⟩
    · simp only [hr, Bool.false_eq_true, if_false]
      exact h
    · simp only [hr, if_true]
      exact h

end ArcCache

/-! ## Freshness of the values read -/

namespace ArcCache

theorem run_concat (c : ArcCache K V) (ops : List (Op K V)) (op : Op K V) :
    c.run (ops ++ [op]) = (c.run ops).step op := by
  simp [run, List.foldl_append]

theorem lastPut_concat (ops : List (Op K V)) (op : Op K V) (k : K) :
    lastPut (ops ++ [op]) k =
      (match Op.putValue? k op with
        | some v => some v
        | none => lastPut ops k) := by
  unfold lastPut
  rw [List.reverse_concat, List.findSome?_cons]
  generalize Op.putValue? k op = o
  cases o <;> rfl

theorem checkGhostCaches_fresh (c : ArcCache K V) (key : K) (m : K → Option V)
    (h : c.Fresh m) : (c.checkGhostCaches key).2.Fresh m := by
  obtain ⟨hl, hf⟩ := checkGhostCaches_kvs c key
  exact ⟨fun x hx => h.1 x (hl x hx), fun y hy => h.2 y (hf y hy)⟩

theorem put_fresh (c : ArcCache K V) (key : K) (value : V) (m m1 : K → Option V)
    (h : c.Fresh m) (hm : ∀ k, m1 k = if key = k then some value else m k) :
    (c.put key value).Fresh m1 := by
  have h1 := checkGhostCaches_fresh c key m h
  generalize hc1 : (c.checkGhostCaches key).2 = c1 at h1
  have hnew : ∀ x : K × V, x = (key, value) → m1 x.1 = some x.2 := by
    intro x hx
    rw [hx, hm]
    simp
  have hold : ∀ x : K × V, x.1 ≠ key → m x.1 = some x.2 → m1 x.1 = some x.2 := by
    intro x hne hx
    rw [hm, if_neg (fun heq => hne heq.symm)]
    exact hx
  have hlru : ∀ x ∈ (c1.lruPart_.put key value).kvs, m1 x.1 = some x.2 := by
    intro x hx
    rcases ArcLruPart.lru_put_kvs _ _ _ x hx with hx1 | ⟨hxk, hx1⟩
    · exact hnew x hx1
    · exact hold x hxk (h1.1 x hx1)
  rw [put_eq c c1 key value hc1]
  by_cases hin : c1.lfuPart_.contain key = true
  · simp only [hin, if_true]
    refine ⟨hlru, ?_⟩
    intro y hy
    rcases ArcLfuPart.lfu_put_kvs _ _ _ y hy with hy1 | ⟨hyk, hy1⟩
    · exact hnew y hy1
    · exact hold y hyk (h1.2 y hy1)
  · simp only [hin, if_false]
    refine ⟨hlru, ?_⟩
    intro y hy
    exact hold y (ArcLfuPart.lfu_key_ne_of_not_contain _ key hin y hy) (h1.2 y hy)

theorem get_hit_fresh (c : ArcCache K V) (key : K) (value : V) (m : K → Option V)
    (h : c.Fresh m) (hit : (c.get key value).1 = true) :
    m key = some (c.get key value).2.1 := by
  have h1 := checkGhostCaches_fresh c key m h
  generalize hc1 : (c.checkGhostCaches key).2 = c1 at h1
  rw [get_eq c c1 key value hc1] at hit ⊢
  by_cases hl : (c1.lruPart_.get key value false).1 = true
  · have hmem := ArcLruPart.lru_get_hit_mem _ _ _ _ hl
    have := h1.1 _ hmem
    simp only [hl, if_true]
    split <;> exact this
  · simp only [hl, if_false] at hit ⊢
    have hmem := ArcLfuPart.lfu_get_hit_mem _ _ _ hit
    exact h1.2 _ hmem

theorem get_fresh (c : ArcCache K V) (key : K) (value : V) (m : K → Option V)
    (h : c.Fresh m) : (c.get key value).2.2.Fresh m := by
  have h1 := checkGhostCaches_fresh c key m h
  generalize hc1 : (c.checkGhostCaches key).2 = c1 at h1
  have hlru : ∀ x ∈ (c1.lruPart_.get key value false).2.2.2.kvs, m x.1 = some x.2 :=
    fun x hx => h1.1 x (ArcLruPart.lru_get_kvs_subset _ _ _ _ x hx)
  rw [get_eq c c1 key value hc1]
  by_cases hl : (c1.lruPart_.get key value false).1 = true
  · have hmem := ArcLruPart.lru_get_hit_mem _ _ _ _ hl
    simp only [hl, if_true]
    split
    · refine ⟨hlru, ?_⟩
      intro y hy
      rcases ArcLfuPart.lfu_put_kvs _ _ _ y hy with hy1 | ⟨-, hy1⟩
      · rw [hy1]
        exact h1.1 _ hmem
      · exact h1.2 y hy1
    · exact ⟨hlru, h1.2⟩
  · simp only [hl, if_false]
    exact ⟨hlru, fun y hy => h1.2 y (ArcLfuPart.lfu_get_kvs _ _ _ y hy)⟩

theorem run_fresh (capacity transformThreshold : Nat) (ops : List (Op K V)) :
    ((ArcCache.new capacity transformThreshold : ArcCache K V).run ops).Fresh (lastPut ops) := by
  induction ops using List.reverseRecOn with
  | nil =>
    constructor
    · intro x hx
      simp [run, ArcCache.new, ArcLruPart.new, ArcLruPart.kvs] at hx
    · intro y hy
      simp [run, ArcCache.new, ArcLfuPart.new, ArcLfuPart.kvs] at hy
  | append_singleton ops op ih =>
    rw [run_concat]
    cases op with
    | put key value =>
      apply put_fresh _ key value (lastPut ops) _ ih
      intro k
      rw [lastPut_concat]
      simp only [Op.putValue?]
      split
      · next v hv =>
        by_cases hk : key = k
        · simp only [hk, if_true, Option.some.injEq] at hv ⊢
          exact hv.symm
        · simp [hk] at hv
      · next hv =>
        by_cases hk : key = k
        · simp [hk] at hv
        · simp [hk]
    | get key value =>
      have := get_fresh _ key value (lastPut ops) ih
      have hm : lastPut (ops ++ [Op.get key value]) = lastPut ops := by
        funext k
        rw [lastPut_concat]
        simp [Op.putValue?]
      rw [hm]
      exact this

/-- C13: no stale reads.  For every sequence of put and get calls on a cache
starting from construction, whenever a following `get(k, out)` returns true,
the sequence contains a `put(k, ·)` and the value written to `out` is the
value of the most recent one, whichever partition serves the hit. -/
theorem no_stale_reads (capacity transformThreshold : Nat) (ops : List (Op K V)) (k : K)
    (out : V)
    (hit : (((ArcCache.new capacity transformThreshold : ArcCache K V).run ops).get k out).1
      = true) :
    lastPut ops k =
      some (((ArcCache.new capacity transformThreshold : ArcCache K V).run ops).get k out).2.1 :=
  get_hit_fresh _ k out (lastPut ops) (run_fresh capacity transformThreshold ops) hit

/-- C13 (witness): key 1 is promoted, overwritten with "z" and then evicted
from the LRU part by two more puts; the next `get(1)` is a hit, served by the
LFU part after a capacity transfer, and reads "z". -/
theorem no_stale_reads_witness :
    (((ArcCache.new 2 2 : ArcCache Nat String).run
        [.put 1 "a", .get 1 "", .get 1 "", .put 1 "z", .put 2 "b", .put 3 "c"]).get 1 "").1
      = true ∧
    lastPut ([.put 1 "a", .get 1 "", .get 1 "", .put 1 "z", .put 2 "b", .put 3 "c"] :
        List (Op Nat String)) 1 =
      some (((ArcCache.new 2 2 : ArcCache Nat String).run
        [.put 1 "a", .get 1 "", .get 1 "", .put 1 "z", .put 2 "b", .put 3 "c"]).get 1 "").2.1 :=
  ⟨by decide, no_stale_reads 2 2 _ 1 "" (by decide)⟩

/-- C15: put never admits a key into the frequency partition.  A key that is
not resident in the LFU part before `put(key, value)` is not resident in it
after the call, so the keys resident after the put are among those resident
before.  After `get(key, out)` such a key is resident in the LFU part exactly
when it is the key of the call and the promotion branch ran: the LRU part hit
and signalled that the access count crossed the threshold. -/
theorem lfu_admission (c : ArcCache K V) (key : K) (value : V) (k : K)
    (hnew : c.lfuPart_.contain k = false) :
    (c.put key value).lfuPart_.contain k = false ∧
    ((c.get key value).2.2.lfuPart_.contain k = true ↔
      (k = key ∧ ((c.checkGhostCaches key).2.lruPart_.get key value false).1 = true ∧
        ((c.checkGhostCaches key).2.lruPart_.get key value false).2.2.1 = true)) := by
  have hsub := (checkGhostCaches_contain c key k).2
  generalize hc1 : (c.checkGhostCaches key).2 = c1 at hsub
  have hnot : ¬ c1.lfuPart_.contain k = true := fun h => by simp [hsub h] at hnew
  have hkvs : ∀ y ∈ c1.lfuPart_.kvs, y.1 ≠ k :=
    fun y hy heq => hnot ((ArcLfuPart.lfu_contain_iff_kvs _ _).mpr ⟨y, hy, heq⟩)
  constructor
  · rw [put_eq c c1 key value hc1]
    by_cases hin : c1.lfuPart_.contain key = true
    · simp only [hin, if_true]
      have hne : key ≠ k := fun heq => hnot (heq ▸ hin)
      rw [Bool.eq_false_iff]
      intro h
      obtain ⟨y, hy, hyk⟩ := (ArcLfuPart.lfu_contain_iff_kvs _ _).mp h
      rcases ArcLfuPart.lfu_put_kvs _ _ _ y hy with hy1 | ⟨-, hy1⟩
      · exact hne (by rw [← hyk, hy1])
      · exact hkvs y hy1 hyk
    · simp only [hin, if_false]
      simpa using hnot
  · rw [get_eq c c1 key value hc1]
    by_cases hl : (c1.lruPart_.get key value false).1 = true
    · by_cases ht : (c1.lruPart_.get key value false).2.2.1 = true
      · simp only [hl, ht, if_true, and_true]
        constructor
        · intro h
          obtain ⟨y, hy, hyk⟩ := (ArcLfuPart.lfu_contain_iff_kvs _ _).mp h
          rcases ArcLfuPart.lfu_put_kvs _ _ _ y hy with hy1 | ⟨-, hy1⟩
          · rw [← hyk, hy1]
          · exact absurd hyk (hkvs y hy1)
        · intro hk
          rw [hk, ArcLfuPart.lfu_contain_eq_isSome, ArcLfuPart.lfu_put_lookup]
          rfl
      · simp only [hl, ht, if_true, if_false, and_false, Bool.false_eq_true, iff_false]
        exact hnot
    · simp only [hl, if_false, false_and, and_false, Bool.false_eq_true, iff_false]
      intro h
      obtain ⟨y, hy, hyk⟩ := (ArcLfuPart.lfu_contain_iff_kvs _ _).mp h
      exact hkvs y (ArcLfuPart.lfu_get_kvs _ _ _ y hy) hyk

/-- C15 (witness): with threshold 1, key 1 is in the LRU part only; a further
put of key 1 leaves it out of the LFU part, and a get of key 1 promotes it. -/
theorem lfu_admission_witness :
    ((ArcCache.new 2 1 : ArcCache Nat String).put 1 "a").lfuPart_.contain 1 = false ∧
    ((((ArcCache.new 2 1 : ArcCache Nat String).put 1 "a").put 1 "b").lfuPart_.contain 1
        = false ∧
      (((((ArcCache.new 2 1 : ArcCache Nat String).put 1 "a").get 1 "").2.2.lfuPart_.contain 1
          = true) ↔
        (1 = 1 ∧
          ((((ArcCache.new 2 1 : ArcCache Nat String).put 1 "a").checkGhostCaches
            1).2.lruPart_.get 1 "" false).1 = true ∧
          ((((ArcCache.new 2 1 : ArcCache Nat String).put 1 "a").checkGhostCaches
            1).2.lruPart_.get 1 "" false).2.2.1 = true))) :=
  ⟨by decide, lfu_admission ((ArcCache.new 2 1 : ArcCache Nat String).put 1 "a") 1 "b" 1
    (by decide)⟩

end ArcCache

end CacheStrategy
